import Mathlib

/-!
Shallow embedding of `src/curve.rs` of the akatsuki-pp-rs repository
(the slider-curve approximation and arc-length engine), together with
proofs settling the specification claims about it.

Modelling conventions:
* `f32` values are modelled as exact real numbers (`ℝ`); `f32::EPSILON`
  becomes the rational constant `fEps = 2⁻²³`.
* Code that panics (index out of bounds / usize underflow) is modelled by
  `Option`, returning `none` exactly where the Rust code would fail.
* The adaptive bezier-subdivision loops are modelled with an explicit
  `fuel` parameter: `none` on fuel exhaustion.  All claims are stated for
  arbitrary (or sufficient) fuel.
* `Pos2` itself lives in `parse.rs`, which is not part of `src/`; its
  component-wise vector arithmetic is modelled from the spec's data-model
  section ("2-D float vector with add/sub/scale/dot/length/normalize",
  exact equality).
-/

set_option maxHeartbeats 1000000

noncomputable section

open Classical List

/-- Modelled from the spec: the 2-D point/vector value type (`Pos2` of `parse.rs`,
a file that is not under `src/`); arithmetic is component-wise, equality exact. -/
structure Pos2 where
  x : ℝ
  y : ℝ

instance : Zero Pos2 := ⟨⟨0, 0⟩⟩
instance : Inhabited Pos2 := ⟨⟨0, 0⟩⟩
instance : Add Pos2 := ⟨fun p q => ⟨p.x + q.x, p.y + q.y⟩⟩
instance : Sub Pos2 := ⟨fun p q => ⟨p.x - q.x, p.y - q.y⟩⟩
instance : HMul Pos2 ℝ Pos2 := ⟨fun p s => ⟨p.x * s, p.y * s⟩⟩
instance : HDiv Pos2 ℝ Pos2 := ⟨fun p s => ⟨p.x / s, p.y / s⟩⟩

/-- Modelled from the spec: squared Euclidean norm of a `Pos2`. -/
def Pos2.length_squared (p : Pos2) : ℝ := p.x ^ 2 + p.y ^ 2

/-- Modelled from the spec: Euclidean norm of a `Pos2`. -/
def Pos2.length (p : Pos2) : ℝ := Real.sqrt p.length_squared

/-- Modelled from the spec: `normalize` divides a vector by its norm. -/
def Pos2.normalize (p : Pos2) : Pos2 := p / p.length

/-- Modelled from the spec: dot product of two `Pos2`. -/
def Pos2.dot (p q : Pos2) : ℝ := p.x * q.x + p.y * q.y

/-- `PathType` enum from `parse.rs` (not under `src/`), as listed in the spec. -/
inductive PathType where
  | Linear
  | Bezier
  | Catmull
  | PerfectCurve
deriving DecidableEq

/-- `PathControlPoint` from `parse.rs` (not under `src/`), as in the spec's data model. -/
structure PathControlPoint where
  pos : Pos2
  kind : Option PathType

instance : Inhabited PathControlPoint := ⟨⟨0, none⟩⟩

/-- `BEZIER_TOLERANCE` constant of `curve.rs`. -/
def BEZIER_TOLERANCE : ℝ := 0.25

/-- `CATMULL_DETAIL` constant of `curve.rs`. -/
def CATMULL_DETAIL : ℕ := 50

/-- `CIRCULAR_ARC_TOLERANCE` constant of `curve.rs`. -/
def CIRCULAR_ARC_TOLERANCE : ℝ := 0.1

/-- `f32::EPSILON` = 2⁻²³, the epsilon used throughout `curve.rs`. -/
def fEps : ℝ := 1 / 8388608

/-- `f32::atan2` (range `(-π, π]`), used by `circular_arc_properties`. -/
def atan2 (y x : ℝ) : ℝ := Complex.arg ⟨x, y⟩

/-- One level of the De Casteljau midpoint construction:
`midpoints[j] := (midpoints[j] + midpoints[j+1]) / 2` (`bezier_subdivide` inner loop). -/
def midpoint_step (l : List Pos2) : List Pos2 :=
  List.zipWith (fun a b => (a + b) / (2 : ℝ)) l l.tail

/-- The left output `l` of `bezier_subdivide`: `l[k] = m^k[0]` where `m^k` is the
`k`-fold midpoint iteration of the control points (traced from the index loop). -/
def subdivideL (pts : List Pos2) : List Pos2 :=
  (List.range pts.length).map fun k => (midpoint_step^[k] pts).headD 0

/-- The right output `r` of `bezier_subdivide`: `r[k] = m^(n-1-k)[k]`. -/
def subdivideR (pts : List Pos2) : List Pos2 :=
  (List.range pts.length).map fun k => (midpoint_step^[pts.length - 1 - k] pts).getD k 0

/-- `bezier_is_flat_enough` of `curve.rs`: no interior second difference exceeds
`BEZIER_TOLERANCE² · 4` in squared norm. -/
def bezier_is_flat_enough (pts : List Pos2) : Prop :=
  ∀ k, k + 2 < pts.length →
    (pts.getD k 0 - pts.getD (k + 1) 0 * (2 : ℝ) + pts.getD (k + 2) 0).length_squared ≤
      BEZIER_TOLERANCE * BEZIER_TOLERANCE * 4

/-- `(prev + curr * 2.0 + next) * 0.25`, the midpoint-averaging map of `bezier_approximate`. -/
def combine4 (prev curr next : Pos2) : Pos2 :=
  (prev + curr * (2 : ℝ) + next) * (0.25 : ℝ)

/-- Consecutive `combine4` windows over a list: entry `j` is built from
elements `j`, `j+1`, `j+2` (models the `zip(skip 1, skip 2, skip 3)` iterators
when applied to `v.drop 1`). -/
def windows3 : List Pos2 → List Pos2
  | p :: c :: n :: t => combine4 p c n :: windows3 (c :: n :: t)
  | _ => []

/-- `Iterator::step_by(2)`: keep every second element, starting with the first. -/
def step_by_two {α : Type} : List α → List α
  | [] => []
  | [a] => [a]
  | a :: _ :: t => a :: step_by_two t

/-- Points pushed by the eager `Curve::bezier_approximate` for one flat-enough
control polygon: `points[0]`, then the stepped window averages over the left
slice `l[..count]` and the right slice `r[1..count]`. -/
def bezier_approximate_out (pts : List Pos2) : List Pos2 :=
  pts.headD 0 ::
    (step_by_two (windows3 ((subdivideL pts).drop 1)) ++
      step_by_two (windows3 ((subdivideR pts).drop 2)))

/-- The eager `approximate_bspline` work loop (`to_flatten` stack), fuelled.
The stack discipline mirrors the Rust code: the left child is pushed last and
popped first. -/
def bspline_go : ℕ → List (List Pos2) → List Pos2 → Option (List Pos2)
  | _, [], acc => some acc
  | 0, _ :: _, _ => none
  | fuel + 1, parent :: rest, acc =>
    if bezier_is_flat_enough parent then
      bspline_go fuel rest (acc ++ bezier_approximate_out parent)
    else
      bspline_go fuel (subdivideL parent :: subdivideR parent :: rest) acc

/-- `Curve::approximate_bspline`: run the work loop then push `points[p - 1]`. -/
def approximate_bspline (fuel : ℕ) (path pts : List Pos2) : Option (List Pos2) :=
  (bspline_go fuel [pts] path).map (· ++ [pts.getLastD 0])

/-- `Curve::approximate_bezier` delegates to `approximate_bspline`. -/
def approximate_bezier (fuel : ℕ) (path pts : List Pos2) : Option (List Pos2) :=
  approximate_bspline fuel path pts

/-- `Curve::catmull_find_point`, transcribed coordinate-wise from `curve.rs`. -/
def catmull_find_point (v1 v2 v3 v4 : Pos2) (t : ℝ) : Pos2 :=
  let t2 := t * t
  let t3 := t * t * t
  ⟨0.5 * (2 * v2.x + (-v1.x + v3.x) * t + (2 * v1.x - 5 * v2.x + 4 * v3.x - v4.x) * t2 +
      (-v1.x + 3 * v2.x - 3 * v3.x + v4.x) * t3),
   0.5 * (2 * v2.y + (-v1.y + v3.y) * t + (2 * v1.y - 5 * v2.y + 4 * v3.y - v4.y) * t2 +
      (-v1.y + 3 * v2.y - 3 * v3.y + v4.y) * t3)⟩

/-- `Curve::approximate_catmull`: for each consecutive pair, 50 sample steps,
pushing both step endpoints. -/
def approximate_catmull (path pts : List Pos2) : List Pos2 :=
  path ++
    (List.range (pts.length - 1)).flatMap fun i =>
      let v2 := pts.getD i 0
      let v1 := if i = 0 then v2 else pts.getD (i - 1) v2
      let v3 := (pts[i + 1]?).getD (v2 * (2 : ℝ) - v1)
      let v4 := (pts[i + 2]?).getD (v3 * (2 : ℝ) - v2)
      (List.range CATMULL_DETAIL).flatMap fun c =>
        [catmull_find_point v1 v2 v3 v4 ((c : ℝ) / (CATMULL_DETAIL : ℝ)),
         catmull_find_point v1 v2 v3 v4 (((c : ℝ) + 1) / (CATMULL_DETAIL : ℝ))]

/-- `CircularArcProperties` of `curve.rs`. -/
structure CircularArcProperties where
  theta_start : ℝ
  theta_range : ℝ
  direction : ℝ
  radius : ℝ
  centre : Pos2

/-- `Curve::circular_arc_properties`, transcribed verbatim from `curve.rs`
(including the `centre.y` numerator `(c - b).x + b_sq * (a - c).x + c_sq * (b - a).x`
exactly as written in the source).  The `while theta_end < theta_start` loop is
replaced by its closed form (adding the least sufficient multiple of `2π`). -/
def circular_arc_properties (a b c : Pos2) : Option CircularArcProperties :=
  if |(b.y - a.y) * (c.x - a.x) - (b.x - a.x) * (c.y - a.y)| ≤ fEps then none
  else
    let d := 2 * (a.x * (b - c).y + b.x * (c - a).y + c.x * (a - b).y)
    let a_sq := a.length_squared
    let b_sq := b.length_squared
    let c_sq := c.length_squared
    let centre : Pos2 :=
      ⟨(a_sq * (b - c).y + b_sq * (c - a).y + c_sq * (a - b).y) / d,
       ((c - b).x + b_sq * (a - c).x + c_sq * (b - a).x) / d⟩
    let d_a := a - centre
    let d_c := c - centre
    let radius := d_a.length
    let theta_start := atan2 d_a.y d_a.x
    let theta_end0 := atan2 d_c.y d_c.x
    let theta_end := theta_end0 + 2 * Real.pi * (⌈(theta_start - theta_end0) / (2 * Real.pi)⌉₊ : ℝ)
    let theta_range0 := theta_end - theta_start
    let ortho_a_to_c : Pos2 := ⟨(c - a).y, -(c - a).x⟩
    if ortho_a_to_c.dot (b - a) < 0 then
      some ⟨theta_start, 2 * Real.pi - theta_range0, -1, radius, centre⟩
    else
      some ⟨theta_start, theta_range0, 1, radius, centre⟩

/-- `Curve::approximate_circular_arc`: sample the arc, or fall back to the
bezier approximator when the triangle is degenerate. -/
def approximate_circular_arc (fuel : ℕ) (path : List Pos2) (a b c : Pos2) :
    Option (List Pos2) :=
  match circular_arc_properties a b c with
  | none => approximate_bezier fuel path [a, b, c]
  | some pr =>
    let amount_points : ℕ :=
      if 2 * pr.radius ≤ CIRCULAR_ARC_TOLERANCE then 2
      else
        max 2 ⌈pr.theta_range / (2 * Real.arccos (1 - CIRCULAR_ARC_TOLERANCE / pr.radius))⌉₊
    some (path ++
      (List.range amount_points).map fun i =>
        let fract := (i : ℝ) / ((amount_points - 1 : ℕ) : ℝ)
        let theta := pr.theta_start + fract * (pr.direction * pr.theta_range)
        pr.centre + (⟨Real.cos theta, Real.sin theta⟩ : Pos2) * pr.radius)

/-- `Curve::calculate_subpath`: dispatch on the segment type. -/
def calculate_subpath (fuel : ℕ) (path sub_points : List Pos2) (kind : PathType) :
    Option (List Pos2) :=
  match kind with
  | .Bezier => approximate_bezier fuel path sub_points
  | .Catmull => some (approximate_catmull path sub_points)
  | .Linear => some (path ++ sub_points)
  | .PerfectCurve =>
    match sub_points with
    | [a, b, c] => approximate_circular_arc fuel path a b c
    | _ => approximate_bezier fuel path sub_points

/-- `Vec::dedup`: remove consecutive exactly-equal points. -/
def dedupVec (l : List Pos2) : List Pos2 := l.destutter (· ≠ ·)

/-- One step of the segmentation loop of `Curve::calculate_path`: skip index `i`
unless it ends a segment, otherwise approximate `vertices[start..=i]` with the
type of the marker at `start` and restart the segment at `i`. -/
def calc_path_step (fuel : ℕ) (points : List PathControlPoint) (vertices : List Pos2)
    (st : Option (List Pos2) × ℕ) (i : ℕ) : Option (List Pos2) × ℕ :=
  if (points.getD i default).kind = none ∧ i < points.length - 1 then st
  else
    (st.1.bind fun path =>
      calculate_subpath fuel path ((vertices.drop st.2).take (i + 1 - st.2))
        (((points.getD st.2 default).kind).getD PathType.Linear),
     i)

/-- `Curve::calculate_path`: segment the control points, approximate each
segment, concatenate, and dedup. -/
def calculate_path (fuel : ℕ) (points : List PathControlPoint) : Option (List Pos2) :=
  ((List.range points.length).foldl
      (calc_path_step fuel points (points.map (·.pos))) (some [], 0)).1.map dedupVec

/-- The cumulative-length table built by the first loop of
`Curve::calculate_length`: `[0, d₀₁, d₀₁+d₁₂, …]`. -/
def cumulative_lengths (path : List Pos2) : List ℝ :=
  List.scanl (· + ·) 0 (List.zipWith (fun a b => (b - a).length) path path.tail)

/-- The osu!-stable special case of `Curve::calculate_length`: the last two
control points coincide and the expected length exceeds the calculated one. -/
def special_cond (points : List PathControlPoint) (expected calcLen : ℝ) : Prop :=
  2 ≤ points.length ∧
    (points.getD (points.length - 2) default).pos =
      (points.getD (points.length - 1) default).pos ∧
    calcLen < expected

/-- The trimming `while` loop of `Curve::calculate_length`: pop trailing
cumulative lengths greater than the expected length, removing the final path
vertex in lockstep. -/
def trim_go (expected : ℝ) (cum : List ℝ) (path : List Pos2) : List ℝ × List Pos2 :=
  if h : cum ≠ [] ∧ expected < cum.getLastD 0 then
    trim_go expected cum.dropLast path.dropLast
  else (cum, path)
termination_by cum.length
decreasing_by
  have : cum.length ≠ 0 := fun hc => h.1 (List.length_eq_zero.mp hc)
  simp only [List.length_dropLast]
  omega

/-- `Curve::calculate_length`, branch for branch: exact-enough table kept as is;
extension-skip special case; pop of the always-incorrect last entry; trimming;
the `path_end_idx == 0` early return; and the final relocation of the last
vertex along the direction of the last retained segment. Returns
`(lengths, corrected path)`. -/
def calculate_length (points : List PathControlPoint) (path : List Pos2)
    (expected_len : ℝ) : List ℝ × List Pos2 :=
  let cum := cumulative_lengths path
  let calcLen := cum.getLastD 0
  if |expected_len - calcLen| ≤ fEps then (cum, path)
  else if special_cond points expected_len calcLen then (cum ++ [calcLen], path)
  else
    let t := if expected_len < calcLen then trim_go expected_len cum.dropLast path
             else (cum.dropLast, path)
    if t.1 = [] then ([0], t.2)
    else
      (t.1 ++ [expected_len],
       t.2.dropLast ++
         [t.2.getD (t.2.length - 2) 0 +
           Pos2.normalize (t.2.getD (t.2.length - 1) 0 - t.2.getD (t.2.length - 2) 0) *
             (expected_len - t.1.getLastD 0)])

/-- The eager `Curve` result object of `curve.rs`. -/
structure Curve where
  path : List Pos2
  lengths : List ℝ

/-- `Curve::new`.  On an empty polyline the Rust code computes
`0usize - 1` in `calculate_length`'s loop bound and panics
(underflow in debug, out-of-bounds indexing in release); this is modelled
by `none`. -/
def Curve.new (fuel : ℕ) (points : List PathControlPoint) (expected_len : ℝ) :
    Option Curve :=
  (calculate_path fuel points).bind fun path =>
    if path = [] then none
    else
      some ⟨(calculate_length points path expected_len).2,
            (calculate_length points path expected_len).1⟩

/-- The `binary_search_by` loop of the Rust standard library, as used by
`Curve::idx_of_dist` (`Ok` and `Err` are collapsed by `map_or_else(identity, identity)`). -/
def bin_search_go (L : List ℝ) (d : ℝ) (left right : ℕ) : ℕ :=
  if h : left < right then
    if L.getD (left + (right - left) / 2) 0 < d then
      bin_search_go L d (left + (right - left) / 2 + 1) right
    else if d < L.getD (left + (right - left) / 2) 0 then
      bin_search_go L d left (left + (right - left) / 2)
    else left + (right - left) / 2
  else left
termination_by right - left
decreasing_by
  all_goals omega

/-- `Curve::idx_of_dist`. -/
def idx_of_dist (lengths : List ℝ) (d : ℝ) : ℕ :=
  bin_search_go lengths d 0 lengths.length

/-- `interpolate_vertices`, identical in the eager `Curve` and the lazy
`Curve_` (`curve.rs` lines 75–101 and 802–828). -/
def interpolate_vertices (path : List Pos2) (lengths : List ℝ) (i : ℕ) (d : ℝ) : Pos2 :=
  if path = [] then 0
  else if i = 0 then path.headD 0
  else if path.length ≤ i then path.getLastD 0
  else
    let p0 := path.getD (i - 1) 0
    let p1 := path.getD i 0
    let d0 := lengths.getD (i - 1) 0
    let d1 := lengths.getD i 0
    if |d0 - d1| ≤ fEps then p0
    else p0 + (p1 - p0) * ((d - d0) / (d1 - d0))

/-- The eager curve's distance query: binary search plus interpolation. -/
def point_at_distance (c : Curve) (d : ℝ) : Pos2 :=
  interpolate_vertices c.path c.lengths (idx_of_dist c.lengths d) d

/-- `Curve::dist`: the total length (`lengths.last().unwrap_or(0.0)`). -/
def Curve.dist (c : Curve) : ℝ := c.lengths.getLastD 0

/-- `Curve::progress_to_dist`: clamp progress to `[0, 1]` and scale. -/
def progress_to_dist (c : Curve) (progress : ℝ) : ℝ :=
  min (max progress 0) 1 * c.dist

/-- `Curve::position_at`. -/
def position_at (c : Curve) (progress : ℝ) : Pos2 :=
  point_at_distance c (progress_to_dist c progress)

/-- The payload of the lazy `Curve_::Bezier` variant. -/
structure LazyBezier where
  path : List Pos2
  lengths : List ℝ

/-- Points pushed by the lazy `Curve_::bezier_approximate` for one flat-enough
control polygon of `count` points: `points[0]`, then the stepped window
averages over the combined buffer `l[..count] ++ r[1..count]`, capped at
`count - 2` points.  The write `l[count..2 * count - 1].copy_from_slice(&r[1..count])`
indexes the shared buffer `l` (of length `buf_len`, allocated once per
control-point run) and panics unless `2 * count - 1 ≤ buf_len`; the panic is
modelled as `none`. -/
def lazy_bezier_approximate_out (buf_len : ℕ) (pts : List Pos2) : Option (List Pos2) :=
  if buf_len < 2 * pts.length - 1 then none
  else
    some (pts.headD 0 ::
      (step_by_two (windows3 ((subdivideL pts ++ (subdivideR pts).drop 1).drop 1))).take
        (pts.length - 2))

/-- The lazy `Curve_::bezier_subpath` work loop (`to_flatten` stack), fuelled. -/
def lazy_flatten (buf_len : ℕ) : ℕ → List (List Pos2) → List Pos2 → Option (List Pos2)
  | _, [], acc => some acc
  | 0, _ :: _, _ => none
  | fuel + 1, parent :: rest, acc =>
    if bezier_is_flat_enough parent then
      (lazy_bezier_approximate_out buf_len parent).bind fun out =>
        lazy_flatten buf_len fuel rest (acc ++ out)
    else
      lazy_flatten buf_len fuel (subdivideL parent :: subdivideR parent :: rest) acc

/-- The duplicate-point segmentation loop at the head of `Curve_::bezier`:
emit `points[start..end]` whenever `end - start > 1` and
`points[end - 1] == points[end]`, restarting at `end`; the final run
`points[start..]` is always a segment. -/
def lazy_segs (points : List Pos2) : List (List Pos2) :=
  let st := (List.range (points.length - 1)).foldl
    (fun (st : ℕ × List (List Pos2)) e =>
      if 1 < e + 1 - st.1 ∧ points.getD e 0 = points.getD (e + 1) 0 then
        (e + 1, st.2 ++ [(points.drop st.1).take (e + 1 - st.1)])
      else st)
    (0, [])
  st.2 ++ [points.drop st.1]

/-- The extension-skip condition of `Curve_::bezier`, checked on the translated
points: `points[len - 2] == last_point && expected_len > calculated_len`. -/
def lazy_special_cond (points : List Pos2) (expected calcLen : ℝ) : Prop :=
  2 ≤ points.length ∧ points.getD (points.length - 2) 0 = points.getLastD 0 ∧
    calcLen < expected

/-- The length-correction tail of `Curve_::bezier` (`curve.rs` lines 549–609):
the same algorithm as `Curve::calculate_length`, with the lazy special-case
condition. -/
def lazy_correct (points path : List Pos2) (expected_len : ℝ) : List ℝ × List Pos2 :=
  let cum := cumulative_lengths path
  let calcLen := cum.getLastD 0
  if |expected_len - calcLen| ≤ fEps then (cum, path)
  else if lazy_special_cond points expected_len calcLen then (cum ++ [calcLen], path)
  else
    let t := if expected_len < calcLen then trim_go expected_len cum.dropLast path
             else (cum.dropLast, path)
    if t.1 = [] then ([0], t.2)
    else
      (t.1 ++ [expected_len],
       t.2.dropLast ++
         [t.2.getD (t.2.length - 2) 0 +
           Pos2.normalize (t.2.getD (t.2.length - 1) 0 - t.2.getD (t.2.length - 2) 0) *
             (expected_len - t.1.getLastD 0)])

/-- Everything `Curve_::bezier` does after translating the input points to be
relative to the first control point: the single-point shortcut, segmentation,
per-segment flattening, the final `path.push(*last_point)`, and length
correction. -/
def bezier_from_relative (fuel : ℕ) (points : List Pos2) (expected_len : ℝ) :
    Option LazyBezier :=
  if points.length = 1 then some ⟨points, [0]⟩
  else
    ((lazy_segs points).foldlM (fun acc s => lazy_flatten points.length fuel [s] acc)
        []).map fun path0 =>
      let path := path0 ++ [points.getLastD 0]
      let r := lazy_correct points path expected_len
      ⟨r.2, r.1⟩

/-- `Curve_::bezier`: subtract the first control point from every input point,
then run the relative pipeline (`points[0]` panics on an empty run: `none`). -/
def Curve_bezier (fuel : ℕ) (points : List Pos2) (expected_len : ℝ) :
    Option LazyBezier :=
  if points = [] then none
  else bezier_from_relative fuel (points.map fun q => q - points.headD 0) expected_len

/-- The `Curve_::point_at_distance` Bezier branch: the same binary search and
interpolation as the eager curve, over the stored (relative) path. -/
def lazy_point_at_distance (c : LazyBezier) (d : ℝ) : Pos2 :=
  interpolate_vertices c.path c.lengths (idx_of_dist c.lengths d) d

/-! ### Component lemmas for `Pos2` arithmetic -/

@[simp] theorem Pos2.zero_x : (0 : Pos2).x = 0 := rfl

@[simp] theorem Pos2.zero_y : (0 : Pos2).y = 0 := rfl

@[simp] theorem Pos2.add_x (p q : Pos2) : (p + q).x = p.x + q.x := rfl

@[simp] theorem Pos2.add_y (p q : Pos2) : (p + q).y = p.y + q.y := rfl

@[simp] theorem Pos2.sub_x (p q : Pos2) : (p - q).x = p.x - q.x := rfl

@[simp] theorem Pos2.sub_y (p q : Pos2) : (p - q).y = p.y - q.y := rfl

@[simp] theorem Pos2.smul_x (p : Pos2) (s : ℝ) : (p * s).x = p.x * s := rfl

@[simp] theorem Pos2.smul_y (p : Pos2) (s : ℝ) : (p * s).y = p.y * s := rfl

@[simp] theorem Pos2.div_x (p : Pos2) (s : ℝ) : (p / s).x = p.x / s := rfl

@[simp] theorem Pos2.div_y (p : Pos2) (s : ℝ) : (p / s).y = p.y / s := rfl

theorem Pos2.eq_iff {p q : Pos2} : p = q ↔ p.x = q.x ∧ p.y = q.y := by
  cases p; cases q; simp [Pos2.mk.injEq]

@[simp] theorem Pos2.smul_zero (p : Pos2) : p * (0 : ℝ) = 0 := by
  rw [Pos2.eq_iff]; simp

@[simp] theorem Pos2.add_zero (p : Pos2) : p + 0 = p := by
  rw [Pos2.eq_iff]; simp

theorem Pos2.length_squared_nonneg (p : Pos2) : 0 ≤ p.length_squared := by
  unfold Pos2.length_squared; positivity

theorem Pos2.length_nonneg (p : Pos2) : 0 ≤ p.length := Real.sqrt_nonneg _

theorem Pos2.length_squared_pos {p : Pos2} (h : p ≠ 0) : 0 < p.length_squared := by
  rcases lt_or_eq_of_le (Pos2.length_squared_nonneg p) with h1 | h1
  · exact h1
  · exfalso
    apply h
    unfold Pos2.length_squared at h1
    have hx : p.x = 0 := by nlinarith [sq_nonneg p.x, sq_nonneg p.y]
    have hy : p.y = 0 := by nlinarith [sq_nonneg p.x, sq_nonneg p.y]
    rw [Pos2.eq_iff]; exact ⟨hx, hy⟩

theorem Pos2.length_pos {p : Pos2} (h : p ≠ 0) : 0 < p.length :=
  Real.sqrt_pos.mpr (Pos2.length_squared_pos h)

theorem Pos2.sub_ne_zero {p q : Pos2} (h : p ≠ q) : p - q ≠ 0 := by
  intro hc
  apply h
  rw [Pos2.eq_iff] at hc ⊢
  constructor <;> [have := hc.1; have := hc.2] <;> simp at this <;> linarith

theorem Pos2.length_sub_pos {p q : Pos2} (h : p ≠ q) : 0 < (q - p).length :=
  Pos2.length_pos (Pos2.sub_ne_zero fun hc => h hc.symm)

theorem Pos2.length_smul (p : Pos2) (s : ℝ) : (p * s).length = p.length * |s| := by
  unfold Pos2.length Pos2.length_squared
  have : (p * s).x ^ 2 + (p * s).y ^ 2 = (p.x ^ 2 + p.y ^ 2) * s ^ 2 := by
    simp; ring
  rw [this, Real.sqrt_mul (by positivity), Real.sqrt_sq_eq_abs]

theorem Pos2.length_normalize_smul {p : Pos2} (h : p ≠ 0) (s : ℝ) :
    (p.normalize * s).length = |s| := by
  have hl : 0 < p.length := Pos2.length_pos h
  have hdiv : p.normalize = p * (p.length)⁻¹ := by
    rw [Pos2.eq_iff]; unfold Pos2.normalize
    constructor <;> simp [div_eq_mul_inv]
  have hmul : p.normalize * s = p * ((p.length)⁻¹ * s) := by
    rw [hdiv, Pos2.eq_iff]; constructor <;> simp <;> ring
  rw [hmul, Pos2.length_smul, abs_mul, abs_inv, abs_of_pos hl]
  field_simp

/-! ### List helper lemmas -/

theorem chain_take {α : Type} {R : α → α → Prop} :
    ∀ (l : List α), List.Chain' R l → ∀ n, List.Chain' R (l.take n)
  | [], _, _ => by simp
  | [a], h, n => by cases n <;> simp
  | a :: b :: t, h, 0 => by simp
  | a :: b :: t, h, 1 => by simp
  | a :: b :: t, h, n + 2 => by
    rw [List.chain'_cons] at h
    have := chain_take (b :: t) h.2 (n + 1)
    simpa [List.chain'_cons, h.1] using this

theorem chain_dropLast {α : Type} {R : α → α → Prop} (l : List α)
    (h : List.Chain' R l) : List.Chain' R l.dropLast := by
  rw [List.dropLast_eq_take]; exact chain_take l h _

theorem getLastD_eq_getD (l : List ℝ) (d : ℝ) : l.getLastD d = l.getD (l.length - 1) d := by
  rw [List.getLastD_eq_getLast?, List.getLast?_eq_getElem?, List.getD_eq_getElem?_getD]

theorem getLastD_pos2_eq_getD (l : List Pos2) (d : Pos2) :
    l.getLastD d = l.getD (l.length - 1) d := by
  rw [List.getLastD_eq_getLast?, List.getLast?_eq_getElem?, List.getD_eq_getElem?_getD]

theorem headD_take {α : Type} [Inhabited α] (l : List α) (n : ℕ) (h : n ≠ 0) (d : α) :
    (l.take n).headD d = l.headD d := by
  cases l with
  | nil => simp
  | cons x t => cases n with
    | zero => simp at h
    | succ m => simp

theorem getD_take (l : List ℝ) (n i : ℕ) (h : i < n) (d : ℝ) :
    (l.take n).getD i d = l.getD i d := by
  simp [List.getD_eq_getElem?_getD, List.getElem?_take, h]

theorem getD_take_pos2 (l : List Pos2) (n i : ℕ) (h : i < n) (d : Pos2) :
    (l.take n).getD i d = l.getD i d := by
  simp [List.getD_eq_getElem?_getD, List.getElem?_take, h]

theorem chain_le_getD_mono {L : List ℝ} (h : List.Chain' (· ≤ ·) L) {i j : ℕ}
    (hij : i ≤ j) (hj : j < L.length) : L.getD i 0 ≤ L.getD j 0 := by
  rcases eq_or_lt_of_le hij with rfl | hlt
  · rfl
  · rw [List.getD_eq_getElem L 0 (lt_of_le_of_lt hij hj), List.getD_eq_getElem L 0 hj]
    exact List.pairwise_iff_getElem.mp (List.chain'_iff_pairwise.mp h) i j _ hj hlt

theorem chain_lt_getD_strict {L : List ℝ} (h : List.Chain' (· < ·) L) {i j : ℕ}
    (hij : i < j) (hj : j < L.length) : L.getD i 0 < L.getD j 0 := by
  rw [List.getD_eq_getElem L 0 (lt_trans hij hj), List.getD_eq_getElem L 0 hj]
  exact List.pairwise_iff_getElem.mp (List.chain'_iff_pairwise.mp h) i j _ hj hij

theorem chain_le_of_dropLast_lt {L : List ℝ} (hne : L ≠ [])
    (h1 : List.Chain' (· < ·) L.dropLast)
    (h2 : 2 ≤ L.length → L.getD (L.length - 2) 0 ≤ L.getLastD 0) :
    List.Chain' (· ≤ ·) L := by
  rw [List.chain'_iff_get]
  intro i hi
  have hlen : 1 ≤ L.length := List.length_pos.mpr hne
  have hgoal : L.getD i 0 ≤ L.getD (i + 1) 0 →
      L.get ⟨i, by omega⟩ ≤ L.get ⟨i + 1, by omega⟩ := by
    rw [List.getD_eq_getElem L 0 (by omega), List.getD_eq_getElem L 0 (by omega)]
    simpa [List.get_eq_getElem] using id
  apply hgoal
  rcases lt_or_ge (i + 1) (L.length - 1) with hcase | hcase
  · have hdl : L.dropLast.getD i 0 < L.dropLast.getD (i + 1) 0 :=
      chain_lt_getD_strict h1 (Nat.lt_succ_self i) (by rw [List.length_dropLast]; omega)
    rw [List.dropLast_eq_take, getD_take _ _ _ (by omega), getD_take _ _ _ (by omega)] at hdl
    exact le_of_lt hdl
  · -- i + 1 = L.length - 1, the final joint
    have hi1 : i + 1 = L.length - 1 := by omega
    have h2' := h2 (by omega)
    rw [getLastD_eq_getD] at h2'
    have hieq : i = L.length - 2 := by omega
    have hsucc : L.length - 2 + 1 = L.length - 1 := by omega
    rw [hieq, hsucc]
    exact h2'

theorem chain_le_all_nonneg {L : List ℝ} (h : List.Chain' (· ≤ ·) L)
    (h0 : L.headD 0 = 0) : ∀ x ∈ L, 0 ≤ x := by
  intro x hx
  cases L with
  | nil => simp at hx
  | cons b t =>
    have hb : b = 0 := by simpa using h0
    subst hb
    have hp := List.chain'_iff_pairwise.mp h
    rcases List.mem_cons.mp hx with rfl | hx
    · exact le_refl 0
    · exact List.rel_of_pairwise_cons hp hx

/-! ### Facts about the cumulative-length table -/

theorem scanl_head (b : ℝ) (l : List ℝ) : (List.scanl (· + ·) b l).head? = some b := by
  cases l <;> simp [List.scanl_nil, List.scanl_cons]

theorem scanl_add_chain_lt (l : List ℝ) (hpos : ∀ x ∈ l, 0 < x) :
    ∀ b : ℝ, List.Chain' (· < ·) (List.scanl (· + ·) b l) := by
  induction l with
  | nil => intro b; simp [List.scanl_nil]
  | cons a t ih =>
    intro b
    rw [List.scanl_cons, List.singleton_append, List.chain'_cons']
    have h1 : 0 < a := hpos a (by simp)
    have ht : ∀ x ∈ t, 0 < x := fun x hx => hpos x (by simp [hx])
    refine ⟨?_, ih ht (b + a)⟩
    intro y hy
    rw [scanl_head] at hy
    have hya : b + a = y := by simpa using hy
    subst hya
    linarith

theorem cumulative_ne_nil (path : List Pos2) : cumulative_lengths path ≠ [] := by
  unfold cumulative_lengths
  cases h : List.zipWith (fun a b => (b - a).length) path path.tail <;>
    simp [List.scanl_nil, List.scanl_cons]

theorem cumulative_head (path : List Pos2) : (cumulative_lengths path).headD 0 = 0 := by
  unfold cumulative_lengths
  cases h : List.zipWith (fun a b => (b - a).length) path path.tail <;>
    simp [List.scanl_nil, List.scanl_cons]

theorem cumulative_length_eq (path : List Pos2) (h : path ≠ []) :
    (cumulative_lengths path).length = path.length := by
  unfold cumulative_lengths
  rw [List.length_scanl, List.length_zipWith, List.length_tail]
  cases path with
  | nil => simp at h
  | cons p t => simp

theorem zip_dist_pos (path : List Pos2) (hch : List.Chain' (· ≠ ·) path) :
    ∀ x ∈ List.zipWith (fun a b => (b - a).length) path path.tail, 0 < x := by
  induction path with
  | nil => simp
  | cons p t ih =>
    cases t with
    | nil => simp
    | cons q u =>
      rw [List.chain'_cons] at hch
      intro x hx
      simp only [List.tail_cons, List.zipWith_cons_cons] at hx
      rcases List.mem_cons.mp hx with rfl | hx
      · exact Pos2.length_sub_pos hch.1
      · exact ih hch.2 x (by simpa using hx)

theorem cumulative_chain_lt (path : List Pos2) (hch : List.Chain' (· ≠ ·) path) :
    List.Chain' (· < ·) (cumulative_lengths path) :=
  scanl_add_chain_lt _ (zip_dist_pos path hch) 0

/-! ### Facts about the trimming loop -/

theorem trim_go_eq_take (e : ℝ) (cum : List ℝ) (path : List Pos2) :
    ∃ j, j ≤ cum.length ∧
      trim_go e cum path = (cum.take (cum.length - j), path.take (path.length - j)) ∧
      (cum.length - j = 0 ∨ (cum.take (cum.length - j)).getLastD 0 ≤ e) := by
  have H : ∀ n (cum : List ℝ) (path : List Pos2), cum.length = n →
      ∃ j, j ≤ cum.length ∧
        trim_go e cum path = (cum.take (cum.length - j), path.take (path.length - j)) ∧
        (cum.length - j = 0 ∨ (cum.take (cum.length - j)).getLastD 0 ≤ e) := by
    intro n
    induction n using Nat.strong_induction_on with
    | _ n ih =>
    intro cum path hn
    subst hn
    rw [trim_go]
    by_cases h : cum ≠ [] ∧ e < cum.getLastD 0
    · rw [dif_pos h]
      have hpos : 0 < cum.length := List.length_pos.mpr h.1
      have hlen : cum.dropLast.length < cum.length := by
        rw [List.length_dropLast]; omega
      obtain ⟨j, hj1, hj2, hj3⟩ := ih cum.dropLast.length hlen cum.dropLast path.dropLast rfl
      have hcumtake : cum.dropLast.take (cum.dropLast.length - j) =
          cum.take (cum.length - (j + 1)) := by
        rw [List.dropLast_eq_take, List.take_take, List.length_take]
        congr 1
        omega
      have hpathtake : path.dropLast.take (path.dropLast.length - j) =
          path.take (path.length - (j + 1)) := by
        rw [List.dropLast_eq_take, List.take_take, List.length_take]
        congr 1
        omega
      refine ⟨j + 1, by omega, ?_, ?_⟩
      · rw [hj2, hcumtake, hpathtake]
      · rw [List.length_dropLast] at hj1 hj3
        rcases hj3 with hj3 | hj3
        · left; omega
        · right
          rw [List.dropLast_eq_take, List.take_take] at hj3
          have : min (cum.length - 1 - j) (cum.length - 1) = cum.length - (j + 1) := by omega
          rwa [this] at hj3
    · rw [dif_neg h]
      push_neg at h
      refine ⟨0, by omega, by simp, ?_⟩
      by_cases hc : cum = []
      · left; simp [hc]
      · right
        simp only [Nat.sub_zero, List.take_length]
        exact h hc
  exact H cum.length cum path rfl

theorem trim_go_ne_nil (e : ℝ) (he : 0 ≤ e) (cum : List ℝ) (path : List Pos2)
    (hne : cum ≠ []) (h0 : cum.headD 0 = 0) :
    (trim_go e cum path).1 ≠ [] ∧ (trim_go e cum path).1.headD 0 = 0 := by
  have H : ∀ n (cum : List ℝ) (path : List Pos2), cum.length = n → cum ≠ [] →
      cum.headD 0 = 0 →
      (trim_go e cum path).1 ≠ [] ∧ (trim_go e cum path).1.headD 0 = 0 := by
    intro n
    induction n using Nat.strong_induction_on with
    | _ n ih =>
    intro cum path hn hne h0
    subst hn
    rw [trim_go]
    by_cases h : cum ≠ [] ∧ e < cum.getLastD 0
    · rw [dif_pos h]
      have hpos : 0 < cum.length := List.length_pos.mpr h.1
      have hlen1 : cum.length ≠ 1 := by
        intro hl1
        obtain ⟨x, hx⟩ := List.length_eq_one.mp hl1
        subst hx
        have hx0 : x = 0 := by simpa using h0
        have : e < 0 := by
          have := h.2
          simpa [hx0] using this
        linarith
      have hlen2 : 2 ≤ cum.length := by omega
      have hdrop : cum.dropLast.length < cum.length := by
        rw [List.length_dropLast]; omega
      apply ih cum.dropLast.length hdrop cum.dropLast path.dropLast rfl
      · intro hc
        have := congrArg List.length hc
        rw [List.length_dropLast] at this
        simp at this
        omega
      · rw [List.dropLast_eq_take, headD_take _ _ (by omega)]
        exact h0
    · rw [dif_neg h]
      exact ⟨hne, h0⟩
  exact H cum.length cum path rfl hne h0

theorem getLastD_mem (l : List ℝ) (h : l ≠ []) : l.getLastD 0 ∈ l := by
  rw [List.getLastD_eq_getLast?, List.getLast?_eq_getLast l h]
  exact List.getLast_mem h

theorem headD_append_ne (l : List ℝ) (a : ℝ) (h : l ≠ []) :
    (l ++ [a]).headD 0 = l.headD 0 := by
  cases l with
  | nil => simp at h
  | cons x t => simp

theorem getD_append_lt (l l' : List ℝ) (i : ℕ) (h : i < l.length) (d : ℝ) :
    (l ++ l').getD i d = l.getD i d := by
  simp [List.getD_eq_getElem?_getD, List.getElem?_append_left h]

theorem getD_append_lt_pos2 (l l' : List Pos2) (i : ℕ) (h : i < l.length) (d : Pos2) :
    (l ++ l').getD i d = l.getD i d := by
  simp [List.getD_eq_getElem?_getD, List.getElem?_append_left h]

theorem getD_dropLast (l : List ℝ) (i : ℕ) (h : i < l.length - 1) (d : ℝ) :
    l.dropLast.getD i d = l.getD i d := by
  rw [List.dropLast_eq_take, getD_take _ _ _ h]

theorem getD_dropLast_pos2 (l : List Pos2) (i : ℕ) (h : i < l.length - 1) (d : Pos2) :
    l.dropLast.getD i d = l.getD i d := by
  rw [List.dropLast_eq_take, getD_take_pos2 _ _ _ h]

/-- The trimmed pair of `calculate_length` (both for trimming and for the
plain pop of the last entry) is a prefix of the cumulative table together with
the matching prefix of the path, and its last retained entry does not exceed
the expected length. -/
theorem trim_pair_take (path : List Pos2) (e : ℝ) (hne : path ≠ [])
    (hch : List.Chain' (· ≠ ·) path) :
    ∃ m, m ≤ (cumulative_lengths path).length - 1 ∧
      (if e < (cumulative_lengths path).getLastD 0 then
          trim_go e (cumulative_lengths path).dropLast path
        else ((cumulative_lengths path).dropLast, path)) =
        ((cumulative_lengths path).take m, path.take (m + 1)) ∧
      (m = 0 ∨ ((cumulative_lengths path).take m).getLastD 0 ≤ e) := by
  have hcne := cumulative_ne_nil path
  have hclen := cumulative_length_eq path hne
  have hcchain := cumulative_chain_lt path hch
  -- Common description of the trimmed pair.
  have htake : ∃ m, m ≤ (cumulative_lengths path).length - 1 ∧
      (if e < (cumulative_lengths path).getLastD 0 then
          trim_go e (cumulative_lengths path).dropLast path
        else ((cumulative_lengths path).dropLast, path)) =
        ((cumulative_lengths path).take m, path.take (m + 1)) ∧
      (m = 0 ∨ ((cumulative_lengths path).take m).getLastD 0 ≤ e) := by
    have hclpos : 1 ≤ (cumulative_lengths path).length := List.length_pos.mpr hcne
    by_cases htr : e < (cumulative_lengths path).getLastD 0
    · rw [if_pos htr]
      obtain ⟨j, hj1, hj2, hj3⟩ := trim_go_eq_take e (cumulative_lengths path).dropLast path
      rw [List.length_dropLast] at hj1 hj3
      refine ⟨(cumulative_lengths path).length - 1 - j, by omega, ?_, ?_⟩
      · rw [hj2]
        have hc1 : (cumulative_lengths path).dropLast.take
            ((cumulative_lengths path).dropLast.length - j) =
            (cumulative_lengths path).take ((cumulative_lengths path).length - 1 - j) := by
          rw [List.dropLast_eq_take, List.take_take, List.length_take]
          congr 1
          omega
        have hc2 : path.length - j = (cumulative_lengths path).length - 1 - j + 1 ∨
            ((cumulative_lengths path).length - 1 - j = 0 ∧ path.length - j ≤ 1) := by
          rw [hclen]
          omega
        rcases hc2 with hc2 | ⟨hc2a, hc2b⟩
        · rw [hc1, hc2]
        · -- j = length - 1 : both takes give take 1 ≍ take (0+1)
          rw [hc1, hc2a]
          have hn1 : 1 ≤ path.length := List.length_pos.mpr hne
          have hpl : path.length - j = 0 + 1 := by
            rw [hclen] at hj1
            omega
          rw [hpl]
      · rcases hj3 with hj3 | hj3
        · left; omega
        · right
          have hc1 : (cumulative_lengths path).dropLast.take
              ((cumulative_lengths path).dropLast.length - j) =
              (cumulative_lengths path).take ((cumulative_lengths path).length - 1 - j) := by
            rw [List.dropLast_eq_take, List.take_take, List.length_take]
            congr 1
            omega
          rw [List.length_dropLast] at hc1
          rwa [hc1] at hj3
    · rw [if_neg htr]
      have hn1 : 1 ≤ path.length := List.length_pos.mpr hne
      have hm : (cumulative_lengths path).length - 1 + 1 = path.length := by
        rw [hclen]; omega
      refine ⟨(cumulative_lengths path).length - 1, le_refl _, ?_, ?_⟩
      · rw [List.dropLast_eq_take, hm, List.take_length]
      · by_cases hc1 : (cumulative_lengths path).length = 1
        · left; omega
        · right
          have hlen2 : 2 ≤ (cumulative_lengths path).length := by omega
          have ht1 : ((cumulative_lengths path).take
              ((cumulative_lengths path).length - 1)).length =
              (cumulative_lengths path).length - 1 :=
            List.length_take_of_le (by omega)
          rw [getLastD_eq_getD, ht1, getD_take _ _ _ (by omega)]
          have hstrict : (cumulative_lengths path).getD
              ((cumulative_lengths path).length - 1 - 1) 0 <
              (cumulative_lengths path).getD ((cumulative_lengths path).length - 1) 0 :=
            chain_lt_getD_strict hcchain (by omega) (by omega)
          rw [← getLastD_eq_getD] at hstrict
          push_neg at htr
          linarith
  obtain ⟨m, hm1, hm2, hm3⟩ := htake
  exact ⟨m, hm1, hm2, hm3⟩

/-- Structural invariants of the `(lengths, path)` pair returned by
`Curve::calculate_length` for a non-empty, deduplicated polyline: the table is
non-empty, starts at `0`, is strictly increasing except possibly at its last
entry, is non-negative, has as many entries as the corrected path (plus one
exactly in the extension-skip special case), and whenever its last two entries
coincide (with matching lengths), the last two corrected path vertices
coincide too. -/
theorem calculate_length_shape (points : List PathControlPoint) (path : List Pos2)
    (e : ℝ) (hne : path ≠ []) (hch : List.Chain' (· ≠ ·) path) (L : List ℝ)
    (P : List Pos2) (hLP : calculate_length points path e = (L, P)) :
    L ≠ [] ∧ P ≠ [] ∧ L.headD 0 = 0 ∧ List.Chain' (· < ·) L.dropLast ∧
    (2 ≤ L.length → L.getD (L.length - 2) 0 ≤ L.getLastD 0) ∧
    (∀ x ∈ L, 0 ≤ x) ∧
    (L.length = P.length ∨
      (special_cond points e (L.getLastD 0) ∧ L.length = P.length + 1)) ∧
    ((L.length = P.length ∧ 2 ≤ L.length ∧ L.getD (L.length - 2) 0 = L.getLastD 0) →
      P.getD (P.length - 2) 0 = P.getLastD 0) := by
  have hcne := cumulative_ne_nil path
  have hclen := cumulative_length_eq path hne
  have hchead := cumulative_head path
  have hcchain := cumulative_chain_lt path hch
  have hcle : List.Chain' (· ≤ ·) (cumulative_lengths path) :=
    List.Chain'.imp (fun a b hab => le_of_lt hab) hcchain
  have hcnonneg : ∀ x ∈ cumulative_lengths path, 0 ≤ x :=
    chain_le_all_nonneg hcle hchead
  have hcalc_nonneg : 0 ≤ (cumulative_lengths path).getLastD 0 :=
    hcnonneg _ (getLastD_mem _ hcne)
  rw [calculate_length] at hLP
  simp only [] at hLP
  by_cases h1 : |e - (cumulative_lengths path).getLastD 0| ≤ fEps
  · rw [if_pos h1] at hLP
    obtain ⟨rfl, rfl⟩ : cumulative_lengths path = L ∧ path = P := by
      constructor <;> [exact congrArg Prod.fst hLP; exact congrArg Prod.snd hLP]
    refine ⟨hcne, hne, hchead, chain_dropLast _ hcchain, ?_, hcnonneg, Or.inl hclen, ?_⟩
    · intro h2
      rw [getLastD_eq_getD]
      exact le_of_lt (chain_lt_getD_strict hcchain (by omega) (by omega))
    · rintro ⟨-, h2, h3⟩
      exfalso
      rw [getLastD_eq_getD] at h3
      exact absurd h3 (ne_of_lt (chain_lt_getD_strict hcchain (by omega) (by omega)))
  · rw [if_neg h1] at hLP
    by_cases h2 : special_cond points e ((cumulative_lengths path).getLastD 0)
    · rw [if_pos h2] at hLP
      obtain ⟨rfl, rfl⟩ :
          cumulative_lengths path ++ [(cumulative_lengths path).getLastD 0] = L ∧
            path = P := by
        constructor <;> [exact congrArg Prod.fst hLP; exact congrArg Prod.snd hLP]
      have hLlen : ((cumulative_lengths path) ++
          [(cumulative_lengths path).getLastD 0]).length =
          (cumulative_lengths path).length + 1 := by simp
      have hLlast : ((cumulative_lengths path) ++
          [(cumulative_lengths path).getLastD 0]).getLastD 0 =
          (cumulative_lengths path).getLastD 0 := by simp
      refine ⟨by simp, hne, ?_, ?_, ?_, ?_, ?_, ?_⟩
      · rw [headD_append_ne _ _ hcne]; exact hchead
      · rw [List.dropLast_concat]; exact hcchain
      · intro hlen2
        rw [hLlast, hLlen]
        have hidx : (cumulative_lengths path).length + 1 - 2 =
            (cumulative_lengths path).length - 1 := by omega
        rw [hidx, getD_append_lt _ _ _ (by omega), ← getLastD_eq_getD]
      · intro x hx
        rcases List.mem_append.mp hx with hx | hx
        · exact hcnonneg x hx
        · have : x = (cumulative_lengths path).getLastD 0 := by simpa using hx
          subst this
          exact hcalc_nonneg
      · right
        rw [hLlast, hLlen, hclen]
        exact ⟨h2, rfl⟩
      · rintro ⟨habs, -, -⟩
        exfalso
        rw [hLlen, hclen] at habs
        omega
    · rw [if_neg h2] at hLP
      -- Common description of the trimmed pair.
      have htake := trim_pair_take path e hne hch
      obtain ⟨m, hm1, hm2, hm3⟩ := htake
      rw [hm2] at hLP
      have hn1 : 1 ≤ path.length := List.length_pos.mpr hne
      have htk2len : (path.take (m + 1)).length = m + 1 :=
        List.length_take_of_le (by rw [hclen] at hm1; omega)
      by_cases h3 : (cumulative_lengths path).take m = []
      · rw [if_pos h3] at hLP
        obtain ⟨rfl, rfl⟩ : ([0] : List ℝ) = L ∧ path.take (m + 1) = P := by
          constructor <;> [exact congrArg Prod.fst hLP; exact congrArg Prod.snd hLP]
        refine ⟨by simp, ?_, by simp, by simp, by intro hx; simp at hx, by simp, ?_,
          by rintro ⟨-, hx, -⟩; simp at hx⟩
        · intro hc
          have := congrArg List.length hc
          rw [htk2len] at this
          simp at this
        · left
          rw [htk2len]
          have hm0 : m = 0 := by
            rcases List.take_eq_nil_iff.mp h3 with hm0 | hc
            · exact hm0
            · exact absurd hc hcne
          simp [hm0]
      · rw [if_neg h3] at hLP
        have hm0 : 1 ≤ m := by
          rcases Nat.eq_zero_or_pos m with hm | hm
          · exfalso; apply h3; simp [hm]
          · exact hm
        have ht1len : ((cumulative_lengths path).take m).length = m :=
          List.length_take_of_le (by omega)
        have hlaste : ((cumulative_lengths path).take m).getLastD 0 ≤ e := by
          rcases hm3 with hm3 | hm3
          · omega
          · exact hm3
        obtain ⟨hL, hP⟩ :
            (cumulative_lengths path).take m ++ [e] = L ∧
            (path.take (m + 1)).dropLast ++
              [(path.take (m + 1)).getD ((path.take (m + 1)).length - 2) 0 +
                Pos2.normalize ((path.take (m + 1)).getD ((path.take (m + 1)).length - 1) 0 -
                  (path.take (m + 1)).getD ((path.take (m + 1)).length - 2) 0) *
                  (e - ((cumulative_lengths path).take m).getLastD 0)] = P := by
          constructor <;> [exact congrArg Prod.fst hLP; exact congrArg Prod.snd hLP]
        subst hL
        subst hP
        have hchtake : List.Chain' (· < ·) ((cumulative_lengths path).take m) :=
          chain_take _ hcchain m
        have hLlen : ((cumulative_lengths path).take m ++ [e]).length = m + 1 := by
          rw [List.length_append, ht1len]; rfl
        have hLlast : ((cumulative_lengths path).take m ++ [e]).getLastD 0 = e := by simp
        have hLpen : ((cumulative_lengths path).take m ++ [e]).getD
            (((cumulative_lengths path).take m ++ [e]).length - 2) 0 =
            ((cumulative_lengths path).take m).getLastD 0 := by
          rw [hLlen]
          have : m + 1 - 2 = m - 1 := by omega
          rw [this, getD_append_lt _ _ _ (by omega), getLastD_eq_getD, ht1len]
        refine ⟨by simp, by simp, ?_, ?_, ?_, ?_, ?_, ?_⟩
        · rw [headD_append_ne _ _ h3, headD_take _ _ (by omega)]
          exact hchead
        · rw [List.dropLast_concat]
          exact hchtake
        · intro h4
          rw [hLpen, hLlast]
          exact hlaste
        · intro x hx
          have he0 : 0 ≤ e := by
            by_contra hneg
            push_neg at hneg
            have hmem := getLastD_mem _ h3
            have := hcnonneg _ (List.mem_of_mem_take hmem)
            linarith
          rcases List.mem_append.mp hx with hx | hx
          · exact hcnonneg x (List.mem_of_mem_take hx)
          · have : x = e := by simpa using hx
            subst this
            exact he0
        · left
          rw [hLlen, List.length_append, List.length_dropLast, htk2len]
          simp only [List.length_singleton]
          omega
        · rintro ⟨-, -, hdup⟩
          rw [hLpen, hLlast] at hdup
          have hzero : e - ((cumulative_lengths path).take m).getLastD 0 = 0 := by
            rw [hdup]; ring
          rw [hzero, Pos2.smul_zero, Pos2.add_zero]
          have hPlen : ((path.take (m + 1)).dropLast ++
              [(path.take (m + 1)).getD ((path.take (m + 1)).length - 2) 0]).length = m + 1 := by
            rw [List.length_append, List.length_dropLast, htk2len]
            simp only [List.length_singleton]
            omega
          rw [hPlen]
          have hdl_len : ((path.take (m + 1)).dropLast).length = m := by
            rw [List.length_dropLast, htk2len]
            omega
          have hidx : m + 1 - 2 = m - 1 := by omega
          rw [hidx, getD_append_lt_pos2 _ _ _ (by omega), List.getLastD_concat,
            getD_dropLast_pos2 _ _ (by rw [htk2len]; omega), htk2len, hidx]

/-! ### Construction facts -/

theorem calculate_path_chain (fuel : ℕ) (points : List PathControlPoint)
    (path : List Pos2) (h : calculate_path fuel points = some path) :
    List.Chain' (· ≠ ·) path := by
  unfold calculate_path at h
  obtain ⟨p0, hp0, rfl⟩ := Option.map_eq_some'.mp h
  exact List.destutter_is_chain' _ _

theorem curve_new_elim (fuel : ℕ) (points : List PathControlPoint) (e : ℝ) (c : Curve)
    (h : Curve.new fuel points e = some c) :
    ∃ path, calculate_path fuel points = some path ∧ path ≠ [] ∧
      List.Chain' (· ≠ ·) path ∧
      calculate_length points path e = (c.lengths, c.path) := by
  unfold Curve.new at h
  obtain ⟨path, hp, hbind⟩ := Option.bind_eq_some.mp h
  by_cases hnil : path = []
  · rw [if_pos hnil] at hbind
    simp at hbind
  · rw [if_neg hnil] at hbind
    have hc := Option.some.inj hbind
    refine ⟨path, hp, hnil, calculate_path_chain _ _ _ hp, ?_⟩
    rw [← hc]

theorem curve_shape (fuel : ℕ) (points : List PathControlPoint) (e : ℝ) (c : Curve)
    (h : Curve.new fuel points e = some c) :
    c.lengths ≠ [] ∧ c.path ≠ [] ∧ c.lengths.headD 0 = 0 ∧
    List.Chain' (· < ·) c.lengths.dropLast ∧
    (2 ≤ c.lengths.length →
      c.lengths.getD (c.lengths.length - 2) 0 ≤ c.lengths.getLastD 0) ∧
    (∀ x ∈ c.lengths, 0 ≤ x) ∧
    (c.lengths.length = c.path.length ∨
      (special_cond points e (c.lengths.getLastD 0) ∧
        c.lengths.length = c.path.length + 1)) ∧
    ((c.lengths.length = c.path.length ∧ 2 ≤ c.lengths.length ∧
        c.lengths.getD (c.lengths.length - 2) 0 = c.lengths.getLastD 0) →
      c.path.getD (c.path.length - 2) 0 = c.path.getLastD 0) := by
  obtain ⟨path, hp, hnil, hch, hLP⟩ := curve_new_elim fuel points e c h
  exact calculate_length_shape points path e hnil hch _ _ hLP

/-! ### Binary-search specification -/

theorem bin_search_go_spec (L : List ℝ) (d : ℝ) (hL : List.Chain' (· ≤ ·) L)
    (left right : ℕ) (h1 : left ≤ right) (h2 : right ≤ L.length)
    (hlow : ∀ j, j < left → L.getD j 0 < d)
    (hhigh : ∀ j, right ≤ j → j < L.length → d < L.getD j 0) :
    (bin_search_go L d left right < L.length ∧
      L.getD (bin_search_go L d left right) 0 = d) ∨
    ((∀ j, j < bin_search_go L d left right → L.getD j 0 < d) ∧
      (∀ j, bin_search_go L d left right ≤ j → j < L.length →
        d < L.getD j 0)) := by
  have H : ∀ n (left right : ℕ), right - left = n → left ≤ right → right ≤ L.length →
      (∀ j, j < left → L.getD j 0 < d) →
      (∀ j, right ≤ j → j < L.length → d < L.getD j 0) →
      (bin_search_go L d left right < L.length ∧
        L.getD (bin_search_go L d left right) 0 = d) ∨
      ((∀ j, j < bin_search_go L d left right → L.getD j 0 < d) ∧
        (∀ j, bin_search_go L d left right ≤ j → j < L.length →
          d < L.getD j 0)) := by
    intro n
    induction n using Nat.strong_induction_on with
    | _ n ih =>
    intro left right hn h1 h2 hlow hhigh
    rw [bin_search_go]
    by_cases hlr : left < right
    · rw [dif_pos hlr]
      have hmidlt : left + (right - left) / 2 < right := by omega
      have hmidlen : left + (right - left) / 2 < L.length := by omega
      by_cases hv1 : L.getD (left + (right - left) / 2) 0 < d
      · rw [if_pos hv1]
        apply ih (right - (left + (right - left) / 2 + 1)) (by omega) _ _ rfl
          (by omega) h2
        · intro j hj
          rcases lt_or_ge j left with hjl | hjl
          · exact hlow j hjl
          · exact lt_of_le_of_lt (chain_le_getD_mono hL (by omega) hmidlen) hv1
        · exact hhigh
      · rw [if_neg hv1]
        by_cases hv2 : d < L.getD (left + (right - left) / 2) 0
        · rw [if_pos hv2]
          apply ih ((left + (right - left) / 2) - left) (by omega) _ _ rfl
            (by omega) (by omega)
          · exact hlow
          · intro j hj1 hj2
            exact lt_of_lt_of_le hv2 (chain_le_getD_mono hL hj1 hj2)
        · rw [if_neg hv2]
          left
          refine ⟨hmidlen, ?_⟩
          have ha := not_lt.mp hv1
          have hb := not_lt.mp hv2
          linarith
    · rw [dif_neg hlr]
      right
      have hlr' : left = right := by omega
      exact ⟨fun j hj => hlow j hj, fun j hj1 hj2 => hhigh j (by omega) hj2⟩
  exact H (right - left) left right rfl h1 h2 hlow hhigh

theorem idx_of_dist_spec (L : List ℝ) (d : ℝ) (hL : List.Chain' (· ≤ ·) L) :
    (idx_of_dist L d < L.length ∧ L.getD (idx_of_dist L d) 0 = d) ∨
    ((∀ j, j < idx_of_dist L d → L.getD j 0 < d) ∧
      (∀ j, idx_of_dist L d ≤ j → j < L.length → d < L.getD j 0)) := by
  unfold idx_of_dist
  exact bin_search_go_spec L d hL 0 L.length (by omega) (le_refl _)
    (by intro j hj; omega) (by intro j hj1 hj2; omega)

theorem headD_eq_getD_zero (l : List ℝ) : l.headD 0 = l.getD 0 0 := by
  cases l <;> simp

theorem headD_eq_getD_zero_pos2 (l : List Pos2) : l.headD 0 = l.getD 0 0 := by
  cases l <;> simp

theorem Pos2.lerp_one (p0 p1 : Pos2) : p0 + (p1 - p0) * (1 : ℝ) = p1 := by
  rw [Pos2.eq_iff]
  constructor <;> simp

theorem getD_mem_of_lt (l : List ℝ) (i : ℕ) (h : i < l.length) : l.getD i 0 ∈ l := by
  rw [List.getD_eq_getElem _ _ h]
  exact List.getElem_mem _

/-- C7 (amended): on every built curve whose adjacent cumulative lengths are
either exactly equal or separated by more than `f32::EPSILON`, the distance
query at `0` returns the first path vertex and the distance query at the total
length returns the last path vertex. -/
theorem c7_point_at_distance_endpoints (fuel : ℕ) (points : List PathControlPoint)
    (e : ℝ) (c : Curve) (h : Curve.new fuel points e = some c)
    (hsep : List.Chain' (fun a b => a = b ∨ fEps < b - a) c.lengths) :
    point_at_distance c 0 = c.path.headD 0 ∧
    point_at_distance c (Curve.dist c) = c.path.getLastD 0 := by
  obtain ⟨hLne, hPne, hhead, hdrop, hjoint, hnonneg, hdisj, hdup⟩ :=
    curve_shape fuel points e c h
  have hch_le : List.Chain' (· ≤ ·) c.lengths :=
    chain_le_of_dropLast_lt hLne hdrop hjoint
  have hLpos : 1 ≤ c.lengths.length := List.length_pos.mpr hLne
  have hPpos : 1 ≤ c.path.length := List.length_pos.mpr hPne
  have hget0 : c.lengths.getD 0 0 = 0 := by rw [← headD_eq_getD_zero]; exact hhead
  have hlen_cases : c.lengths.length = c.path.length ∨
      c.lengths.length = c.path.length + 1 := by
    rcases hdisj with h' | ⟨-, h'⟩ <;> [left; right] <;> exact h'
  have hstrict : ∀ i j, i < j → j < c.lengths.length - 1 →
      c.lengths.getD i 0 < c.lengths.getD j 0 := by
    intro i j hij hj
    have := chain_lt_getD_strict hdrop hij (by rw [List.length_dropLast]; omega)
    rwa [getD_dropLast _ _ (by omega), getD_dropLast _ _ (by omega)] at this
  constructor
  · -- query at distance 0
    rcases idx_of_dist_spec c.lengths 0 hch_le with ⟨hilen, hieq⟩ | ⟨hlo, hhi⟩
    · set i := idx_of_dist c.lengths 0 with hi
      unfold point_at_distance
      rw [← hi]
      unfold interpolate_vertices
      rw [if_neg hPne]
      by_cases hi0 : i = 0
      · rw [if_pos hi0]
      · rw [if_neg hi0]
        have hi1 : 1 ≤ i := by omega
        have hprev0 : c.lengths.getD (i - 1) 0 = 0 := by
          have hle : c.lengths.getD (i - 1) 0 ≤ c.lengths.getD i 0 :=
            chain_le_getD_mono hch_le (by omega) hilen
          have hge : 0 ≤ c.lengths.getD (i - 1) 0 :=
            hnonneg _ (getD_mem_of_lt _ _ (by omega))
          rw [hieq] at hle
          linarith
        -- if i - 1 > 0, the strictly increasing prefix would give 0 < 0
        have hismall : i - 1 = 0 ∨ c.lengths.length - 1 ≤ i := by
          by_contra hcon
          push_neg at hcon
          obtain ⟨hA, hB⟩ := hcon
          have := hstrict 0 (i - 1) (by omega) (by omega)
          rw [hget0, hprev0] at this
          exact lt_irrefl 0 this
        rcases hismall with hsm | hsm
        · have hieq1 : i = 1 := by omega
          by_cases hge : c.path.length ≤ i
          · rw [if_pos hge]
            -- path has exactly one vertex
            have hn1 : c.path.length = 1 := by omega
            obtain ⟨x, hx⟩ := List.length_eq_one.mp hn1
            rw [hx]
            simp
          · rw [if_neg hge]
            have habs : |c.lengths.getD (i - 1) 0 - c.lengths.getD i 0| ≤ fEps := by
              rw [hprev0, hieq]
              simp [fEps]
            rw [if_pos habs, hsm, ← headD_eq_getD_zero_pos2]
        · -- i = L.length - 1 and i ≥ 2; strict prefix forces i - 1 = 0 unless contradiction
          have hiteq : i = c.lengths.length - 1 := by omega
          have h1small : i - 1 = 0 := by
            by_contra hcon
            have := hstrict 0 (i - 1) (by omega) (by omega)
            rw [hget0, hprev0] at this
            exact lt_irrefl 0 this
          have hieq1 : i = 1 := by omega
          by_cases hge : c.path.length ≤ i
          · rw [if_pos hge]
            have hn1 : c.path.length = 1 := by omega
            obtain ⟨x, hx⟩ := List.length_eq_one.mp hn1
            rw [hx]
            simp
          · rw [if_neg hge]
            have habs : |c.lengths.getD (i - 1) 0 - c.lengths.getD i 0| ≤ fEps := by
              rw [hprev0, hieq]
              simp [fEps]
            rw [if_pos habs, h1small, ← headD_eq_getD_zero_pos2]
    · exfalso
      set i := idx_of_dist c.lengths 0 with hi
      by_cases hi0 : i = 0
      · have := hhi 0 (by omega) (by omega)
        rw [hget0] at this
        exact lt_irrefl 0 this
      · have := hlo 0 (by omega)
        rw [hget0] at this
        have h0 : (0 : ℝ) ≤ 0 := le_refl 0
        linarith
  · -- query at the total distance
    have hdist : Curve.dist c = c.lengths.getD (c.lengths.length - 1) 0 := by
      unfold Curve.dist
      exact getLastD_eq_getD _ _
    have hlastP : c.path.getLastD 0 = c.path.getD (c.path.length - 1) 0 :=
      getLastD_pos2_eq_getD _ _
    have hlastL : c.lengths.getLastD 0 = c.lengths.getD (c.lengths.length - 1) 0 :=
      getLastD_eq_getD _ _
    have hfEps_pos : (0 : ℝ) < fEps := by norm_num [fEps]
    rcases idx_of_dist_spec c.lengths (Curve.dist c) hch_le with ⟨hilen, hieq⟩ | ⟨hlo, hhi⟩
    · set i := idx_of_dist c.lengths (Curve.dist c) with hi
      unfold point_at_distance
      rw [← hi]
      unfold interpolate_vertices
      rw [if_neg hPne]
      by_cases hi0 : i = 0
      · rw [if_pos hi0]
        have hd0 : Curve.dist c = 0 := by
          rw [← hieq, hi0, hget0]
        have hlast0 : c.lengths.getD (c.lengths.length - 1) 0 = 0 := by
          rw [← hdist, hd0]
        by_cases hL1 : c.lengths.length = 1
        · have hn1 : c.path.length = 1 := by
            rcases hlen_cases with h' | h' <;> omega
          obtain ⟨x, hx⟩ := List.length_eq_one.mp hn1
          rw [hx]
          simp
        · have hL2 : 2 ≤ c.lengths.length := by omega
          have hpen0 : c.lengths.getD (c.lengths.length - 2) 0 = 0 := by
            have hle := hjoint hL2
            rw [hlastL, hlast0] at hle
            have hge2 : 0 ≤ c.lengths.getD (c.lengths.length - 2) 0 :=
              hnonneg _ (getD_mem_of_lt _ _ (by omega))
            linarith
          have hL2' : c.lengths.length = 2 := by
            by_contra hcon
            have := hstrict 0 (c.lengths.length - 2) (by omega) (by omega)
            rw [hget0, hpen0] at this
            exact lt_irrefl 0 this
          rcases hlen_cases with h' | h'
          · have hdupc := hdup ⟨h', hL2, by rw [hlastL, hlast0, hpen0]⟩
            rw [headD_eq_getD_zero_pos2]
            have h02 : c.path.length - 2 = 0 := by omega
            rw [h02] at hdupc
            rw [hdupc]
          · have hn1 : c.path.length = 1 := by omega
            obtain ⟨x, hx⟩ := List.length_eq_one.mp hn1
            rw [hx]
            simp
      · rw [if_neg hi0]
        by_cases hge : c.path.length ≤ i
        · rw [if_pos hge]
        · rw [if_neg hge]
          have hi1 : 1 ≤ i := by omega
          have hitop : i = c.lengths.length - 1 ∨ i = c.lengths.length - 2 := by
            by_contra hcon
            push_neg at hcon
            obtain ⟨hA, hB⟩ := hcon
            have hsmall : i + 1 < c.lengths.length - 1 := by omega
            have h1 : c.lengths.getD i 0 ≤ c.lengths.getD (i + 1) 0 :=
              chain_le_getD_mono hch_le (by omega) (by omega)
            have h2 : c.lengths.getD (i + 1) 0 ≤
                c.lengths.getD (c.lengths.length - 1) 0 :=
              chain_le_getD_mono hch_le (by omega) (by omega)
            have h4 : c.lengths.getD (c.lengths.length - 1) 0 =
                c.lengths.getD i 0 := by
              rw [← hdist, ← hieq]
            have h3 : c.lengths.getD i 0 = c.lengths.getD (i + 1) 0 := by linarith
            have h5 := hstrict i (i + 1) (by omega) hsmall
            rw [h3] at h5
            exact lt_irrefl _ h5
          have hadj : c.lengths.getD (i - 1) 0 = c.lengths.getD i 0 ∨
              fEps < c.lengths.getD i 0 - c.lengths.getD (i - 1) 0 := by
            have hrel := List.chain'_iff_get.mp hsep (i - 1) (by omega)
            have hg1 : c.lengths.get ⟨i - 1, by omega⟩ = c.lengths.getD (i - 1) 0 := by
              rw [List.getD_eq_getElem _ _ (by omega)]
              simp [List.get_eq_getElem]
            have hg2 : c.lengths.get ⟨i - 1 + 1, by omega⟩ = c.lengths.getD i 0 := by
              rw [List.getD_eq_getElem _ _ (by omega)]
              simp only [List.get_eq_getElem]
              congr 1
              omega
            rw [hg1, hg2] at hrel
            exact hrel
          rcases hadj with hadj | hadj
          · -- adjacent equal: epsilon branch returns the duplicated vertex
            have habs : |c.lengths.getD (i - 1) 0 - c.lengths.getD i 0| ≤ fEps := by
              rw [hadj, sub_self, abs_zero]
              linarith
            rw [if_pos habs]
            have hieqtop : i = c.lengths.length - 1 := by
              by_contra hcon
              have hlt : i < c.lengths.length - 1 := by omega
              have := hstrict (i - 1) i (by omega) hlt
              rw [hadj] at this
              exact lt_irrefl _ this
            rcases hlen_cases with h' | h'
            · have h3 : c.lengths.getD (c.lengths.length - 2) 0 =
                  c.lengths.getLastD 0 := by
                have htmp := hadj
                rw [hieqtop] at htmp
                have hconv : c.lengths.length - 1 - 1 = c.lengths.length - 2 := by
                  omega
                rw [hconv] at htmp
                rw [hlastL]
                exact htmp
              have hdupc := hdup ⟨h', by omega, h3⟩
              have hidx1 : i - 1 = c.path.length - 2 := by omega
              rw [hidx1, hdupc]
            · exact absurd (by omega : c.path.length ≤ i) hge
          · -- separated: exact interpolation with weight 1 gives vertex i
            have hle : c.lengths.getD (i - 1) 0 ≤ c.lengths.getD i 0 :=
              chain_le_getD_mono hch_le (by omega) hilen
            have habs : ¬ |c.lengths.getD (i - 1) 0 - c.lengths.getD i 0| ≤ fEps := by
              rw [abs_sub_comm, abs_of_nonneg (by linarith)]
              linarith
            rw [if_neg habs]
            have hne0 : c.lengths.getD i 0 - c.lengths.getD (i - 1) 0 ≠ 0 := by
              linarith
            rw [← hieq, div_self hne0, Pos2.lerp_one]
            rcases hitop with hit | hit
            · -- i = length - 1, so lengths.length = path.length and i = n - 1
              have hLn : c.lengths.length = c.path.length := by
                rcases hlen_cases with h' | h'
                · exact h'
                · omega
              rw [hlastP]
              congr 1
              omega
            · -- i = length - 2
              have h3 : c.lengths.getD (c.lengths.length - 2) 0 =
                  c.lengths.getLastD 0 := by
                rw [hlastL, ← hit, hieq, hdist]
              rcases hlen_cases with h' | h'
              · have hdupc := hdup ⟨h', by omega, h3⟩
                have hidx1 : i = c.path.length - 2 := by omega
                rw [hidx1, hdupc]
              · rw [hlastP]
                congr 1
                omega
    · exfalso
      rcases lt_or_ge (c.lengths.length - 1) (idx_of_dist c.lengths (Curve.dist c))
        with hc | hc
      · have := hlo (c.lengths.length - 1) hc
        rw [← hdist] at this
        exact lt_irrefl _ this
      · have := hhi (c.lengths.length - 1) hc (by omega)
        rw [← hdist] at this
        exact lt_irrefl _ this

/-! ### Evaluation lemmas for small inputs -/

theorem flat_single (p : Pos2) : bezier_is_flat_enough [p] := by
  intro k hk
  simp at hk

theorem flat_pair (p q : Pos2) : bezier_is_flat_enough [p, q] := by
  intro k hk
  simp only [List.length_cons, List.length_nil] at hk
  omega

theorem bezier_out_single (p : Pos2) : bezier_approximate_out [p] = [p] := by
  unfold bezier_approximate_out subdivideL subdivideR
  simp [windows3, step_by_two]

theorem approximate_bezier_single (f : ℕ) (p : Pos2) :
    approximate_bezier (f + 1) [] [p] = some [p, p] := by
  unfold approximate_bezier approximate_bspline
  rw [show bspline_go (f + 1) [[p]] [] = some [p] by
    rw [bspline_go, if_pos (flat_single p)]
    rw [show ([] : List Pos2) ++ bezier_approximate_out [p] = [p] by
      rw [bezier_out_single]; rfl]
    cases f <;> rfl]
  simp

theorem path_single (fuel : ℕ) (p : Pos2) (k : Option PathType)
    (hf : 1 ≤ fuel) (hk : k ≠ some PathType.Catmull) :
    calculate_path fuel [⟨p, k⟩] = some [p] := by
  obtain ⟨f, rfl⟩ : ∃ f, fuel = f + 1 := ⟨fuel - 1, by omega⟩
  unfold calculate_path calc_path_step
  simp only [List.length_singleton, show List.range 1 = [0] from rfl, List.foldl_cons,
    List.foldl_nil, List.map_cons, List.map_nil]
  rw [if_neg (by simp)]
  simp only [List.getD_cons_zero, List.drop_zero]
  match k with
  | none =>
    simp [calculate_subpath, dedupVec, List.destutter]
  | some PathType.Linear =>
    simp [calculate_subpath, dedupVec, List.destutter]
  | some PathType.Bezier =>
    simp only [Option.getD_some, Option.some_bind, List.take]
    rw [show calculate_subpath (f + 1) [] [p] PathType.Bezier =
        approximate_bezier (f + 1) [] [p] from rfl]
    rw [approximate_bezier_single]
    simp [dedupVec, List.destutter, List.destutter']
  | some PathType.PerfectCurve =>
    simp only [Option.getD_some, Option.some_bind, List.take]
    rw [show calculate_subpath (f + 1) [] [p] PathType.PerfectCurve =
        approximate_bezier (f + 1) [] [p] from rfl]
    rw [approximate_bezier_single]
    simp [dedupVec, List.destutter, List.destutter']
  | some PathType.Catmull =>
    exact absurd rfl hk

theorem path_single_catmull (fuel : ℕ) (p : Pos2) :
    calculate_path fuel [⟨p, some PathType.Catmull⟩] = some [] := by
  unfold calculate_path calc_path_step
  simp only [List.length_singleton, show List.range 1 = [0] from rfl, List.foldl_cons,
    List.foldl_nil, List.map_cons, List.map_nil]
  rw [if_neg (by simp)]
  simp [calculate_subpath, approximate_catmull, dedupVec, List.destutter]

theorem cumulative_single (p : Pos2) : cumulative_lengths [p] = [0] := by
  unfold cumulative_lengths
  simp [List.scanl_nil]

theorem trim_go_nil_fst (e : ℝ) (path : List Pos2) : trim_go e [] path = ([], path) := by
  rw [trim_go]
  simp

theorem calc_length_single (points : List PathControlPoint) (hpts : points.length < 2)
    (p : Pos2) (e : ℝ) : calculate_length points [p] e = ([0], [p]) := by
  unfold calculate_length
  rw [cumulative_single]
  simp only []
  rw [show ([(0 : ℝ)]).getLastD 0 = (0 : ℝ) from rfl]
  by_cases h1 : |e - 0| ≤ fEps
  · rw [if_pos h1]
  · rw [if_neg h1, if_neg (by unfold special_cond; omega)]
    have hd : ([(0 : ℝ)]).dropLast = [] := rfl
    rw [hd]
    have ht : (if e < (0 : ℝ) then trim_go e [] [p] else (([] : List ℝ), [p])) =
        (([] : List ℝ), [p]) := by
      split
      · exact trim_go_nil_fst e [p]
      · rfl
    rw [ht]
    simp

theorem new_single (fuel : ℕ) (p : Pos2) (k : Option PathType) (e : ℝ)
    (hf : 1 ≤ fuel) (hk : k ≠ some PathType.Catmull) :
    Curve.new fuel [⟨p, k⟩] e = some ⟨[p], [0]⟩ := by
  unfold Curve.new
  rw [path_single fuel p k hf hk]
  simp only [Option.some_bind]
  rw [if_neg (by simp), calc_length_single _ (by simp) p e]

theorem query_single (p : Pos2) (d : ℝ) :
    point_at_distance ⟨[p], [0]⟩ d = p := by
  unfold point_at_distance idx_of_dist interpolate_vertices
  simp only [List.length_singleton]
  have hb : bin_search_go [0] d 0 1 = 0 ∨ bin_search_go [0] d 0 1 = 1 := by
    rw [bin_search_go]
    rw [dif_pos (by omega)]
    rw [show (0 + (1 - 0) / 2 : ℕ) = 0 from rfl]
    simp only [List.getD_cons_zero]
    by_cases hd1 : (0 : ℝ) < d
    · rw [if_pos hd1]
      right
      rw [bin_search_go]
      rw [dif_neg (by omega)]
    · rw [if_neg hd1]
      by_cases hd2 : d < 0
      · rw [if_pos hd2]
        left
        rw [bin_search_go]
        rw [dif_neg (by omega)]
      · rw [if_neg hd2]
        left
        rfl
  rcases hb with hb | hb <;> rw [hb]
  · rw [if_neg (by simp), if_pos rfl]
    rfl
  · rw [if_neg (by simp), if_neg (by omega), if_pos (by omega)]
    rfl

/-! ### Claim C1 -/

/-- C1 (code bug): building a `Curve` from an empty control-point list does
not succeed with empty tables; `calculate_length` computes `0usize - 1` as its
loop bound over the empty polyline and the construction fails (panic, modelled
as `none`). -/
theorem c1_empty_input_fails (fuel : ℕ) (e : ℝ) : Curve.new fuel [] e = none := by
  unfold Curve.new calculate_path
  simp [dedupVec]

/-! ### Claim C2 -/

/-- C2 (amended): for every built curve the lengths table is non-decreasing,
and it has exactly as many entries as the path has vertices except in the
extension-skip special case (last two control points coincident and expected
length exceeding the calculated one), where it has exactly one more. -/
theorem c2_lengths_shape (fuel : ℕ) (points : List PathControlPoint) (e : ℝ)
    (c : Curve) (h : Curve.new fuel points e = some c) :
    List.Chain' (· ≤ ·) c.lengths ∧
    (c.lengths.length = c.path.length ∨
      (special_cond points e (c.lengths.getLastD 0) ∧
        c.lengths.length = c.path.length + 1)) := by
  obtain ⟨hLne, hPne, hhead, hdrop, hjoint, hnonneg, hdisj, hdup⟩ :=
    curve_shape fuel points e c h
  exact ⟨chain_le_of_dropLast_lt hLne hdrop hjoint, hdisj⟩

theorem path_pair_same :
    calculate_path 1 [⟨0, some PathType.Linear⟩, ⟨0, none⟩] = some [(0 : Pos2)] := by
  unfold calculate_path calc_path_step calculate_subpath
  simp [List.range_succ, dedupVec, List.destutter, List.destutter']

theorem len_pair_same :
    calculate_length [⟨0, some PathType.Linear⟩, ⟨0, none⟩] [(0 : Pos2)] 15 =
      ([0, 0], [(0 : Pos2)]) := by
  unfold calculate_length
  rw [show cumulative_lengths [(0 : Pos2)] = [0] from cumulative_single 0]
  rw [if_neg (by norm_num [fEps])]
  rw [if_pos (by unfold special_cond; norm_num)]
  simp

theorem new_pair_same :
    Curve.new 1 [⟨0, some PathType.Linear⟩, ⟨0, none⟩] 15 =
      some ⟨[0], [0, 0]⟩ := by
  unfold Curve.new
  rw [path_pair_same]
  simp only [Option.some_bind]
  rw [if_neg (by simp), len_pair_same]

/-- C2 counterexample: for the control points `[(0,0) Linear, (0,0)]` with
expected length `15` (the extension-skip case) the built curve has two length
entries but only one path vertex, so `lengths.len() == path.len()` fails. -/
theorem c2_counterexample :
    Curve.new 1 [⟨0, some PathType.Linear⟩, ⟨0, none⟩] 15 = some ⟨[0], [0, 0]⟩ ∧
    (Curve.mk [0] [0, 0]).lengths.length ≠ (Curve.mk [0] [0, 0]).path.length := by
  exact ⟨new_pair_same, by simp⟩

/-- C2 witness: the amended claim instantiated on the extension-skip curve. -/
theorem c2_witness :
    Curve.new 1 [⟨0, some PathType.Linear⟩, ⟨0, none⟩] 15 = some ⟨[0], [0, 0]⟩ ∧
    (List.Chain' (· ≤ ·) (Curve.mk [0] [0, 0]).lengths ∧
      ((Curve.mk [0] [0, 0]).lengths.length = (Curve.mk [0] [0, 0]).path.length ∨
        (special_cond [⟨0, some PathType.Linear⟩, ⟨0, none⟩] 15
            ((Curve.mk [0] [0, 0]).lengths.getLastD 0) ∧
          (Curve.mk [0] [0, 0]).lengths.length =
            (Curve.mk [0] [0, 0]).path.length + 1))) :=
  ⟨new_pair_same, c2_lengths_shape 1 _ 15 _ new_pair_same⟩

/-! ### Claim C10 -/

/-- C10 (amended): a single control point whose kind is not `Some(Catmull)`
yields path `[p]` and lengths `[0.0]` for every expected length, and
`position_at` returns `p` for every progress value; a single `Catmull`
control point instead produces an empty polyline and construction fails. -/
theorem c10_single_point (fuel : ℕ) (p : Pos2) (k : Option PathType) (e : ℝ)
    (hf : 1 ≤ fuel) (hk : k ≠ some PathType.Catmull) :
    Curve.new fuel [⟨p, k⟩] e = some ⟨[p], [0]⟩ ∧
    ∀ t, position_at ⟨[p], [0]⟩ t = p := by
  refine ⟨new_single fuel p k e hf hk, fun t => ?_⟩
  unfold position_at
  exact query_single p _

/-- C10 counterexample: a single `Catmull` control point produces an empty
polyline, so construction panics (`none`) instead of yielding `([p], [0.0])`. -/
theorem c10_counterexample :
    Curve.new 1 [⟨⟨3, 4⟩, some PathType.Catmull⟩] 7 = none := by
  unfold Curve.new
  rw [path_single_catmull]
  simp

/-- C10 witness: the amended claim instantiated at `p = (3,4)`, kind `None`,
expected length `7`. -/
theorem c10_witness :
    (1 ≤ 1 ∧ (none : Option PathType) ≠ some PathType.Catmull) ∧
    (Curve.new 1 [⟨⟨3, 4⟩, none⟩] 7 = some ⟨[⟨3, 4⟩], [0]⟩ ∧
      ∀ t, position_at ⟨[⟨3, 4⟩], [0]⟩ t = ⟨3, 4⟩) :=
  ⟨⟨le_refl 1, by simp⟩, c10_single_point 1 ⟨3, 4⟩ none 7 (le_refl 1) (by simp)⟩

/-! ### Claim C5 -/

/-- C5 (amended): for every built curve with expected length ≥ 0, whose final
two control points are not coincident, and whose final path has at least two
vertices, the last entry of lengths equals the expected length within ε. -/
theorem c5_expected_length (fuel : ℕ) (points : List PathControlPoint) (e : ℝ)
    (c : Curve) (h : Curve.new fuel points e = some c) (he : 0 ≤ e)
    (hnc : 2 ≤ points.length →
      (points.getD (points.length - 2) default).pos ≠
        (points.getD (points.length - 1) default).pos)
    (hp2 : 2 ≤ c.path.length) :
    |c.lengths.getLastD 0 - e| ≤ fEps := by
  obtain ⟨path, hp, hne, hch, hLP⟩ := curve_new_elim fuel points e c h
  rw [calculate_length] at hLP
  simp only [] at hLP
  by_cases h1 : |e - (cumulative_lengths path).getLastD 0| ≤ fEps
  · rw [if_pos h1] at hLP
    have hL : cumulative_lengths path = c.lengths := congrArg Prod.fst hLP
    rw [← hL]
    rwa [abs_sub_comm] at h1
  · rw [if_neg h1] at hLP
    by_cases h2 : special_cond points e ((cumulative_lengths path).getLastD 0)
    · exact absurd h2.2.1 (hnc h2.1)
    · rw [if_neg h2] at hLP
      obtain ⟨m, hm1, hm2, hm3⟩ := trim_pair_take path e hne hch
      rw [hm2] at hLP
      by_cases h3 : (cumulative_lengths path).take m = []
      · rw [if_pos h3] at hLP
        exfalso
        have hm0 : m = 0 := by
          rcases List.take_eq_nil_iff.mp h3 with h' | h'
          · exact h'
          · exact absurd h' (cumulative_ne_nil path)
        have hP : path.take (m + 1) = c.path := congrArg Prod.snd hLP
        rw [← hP, hm0] at hp2
        have hlen1 : (path.take 1).length ≤ 1 := by
          rw [List.length_take]
          omega
        rw [show (0 : ℕ) + 1 = 1 from rfl] at hp2
        omega
      · rw [if_neg h3] at hLP
        have hL : (cumulative_lengths path).take m ++ [e] = c.lengths :=
          congrArg Prod.fst hLP
        rw [← hL]
        simp only [List.getLastD_concat, sub_self, abs_zero]
        norm_num [fEps]

theorem path_pair_unit :
    calculate_path 1 [⟨⟨0, 0⟩, some PathType.Linear⟩, ⟨⟨1, 0⟩, none⟩] =
      some [⟨0, 0⟩, ⟨1, 0⟩] := by
  unfold calculate_path calc_path_step calculate_subpath
  simp [List.range_succ, dedupVec, List.destutter, List.destutter', Pos2.mk.injEq]

theorem cum_pair_unit :
    cumulative_lengths [(⟨0, 0⟩ : Pos2), ⟨1, 0⟩] = [0, 1] := by
  unfold cumulative_lengths
  have hd : ((⟨1, 0⟩ : Pos2) - ⟨0, 0⟩).length = 1 := by
    unfold Pos2.length Pos2.length_squared
    norm_num
  simp [hd, List.scanl_cons, List.scanl_nil]

theorem len_pair_unit :
    calculate_length [⟨⟨0, 0⟩, some PathType.Linear⟩, ⟨⟨1, 0⟩, none⟩]
      [(⟨0, 0⟩ : Pos2), ⟨1, 0⟩] 1 = ([0, 1], [⟨0, 0⟩, ⟨1, 0⟩]) := by
  unfold calculate_length
  rw [cum_pair_unit]
  rw [if_pos (by norm_num [fEps])]

theorem new_pair_unit :
    Curve.new 1 [⟨⟨0, 0⟩, some PathType.Linear⟩, ⟨⟨1, 0⟩, none⟩] 1 =
      some ⟨[⟨0, 0⟩, ⟨1, 0⟩], [0, 1]⟩ := by
  unfold Curve.new
  rw [path_pair_unit]
  simp only [Option.some_bind]
  rw [if_neg (by simp), len_pair_unit]

/-- C5 counterexample: a single control point with expected length `100`
(vacuously satisfying the coincidence hypothesis) yields lengths `[0.0]`,
whose last entry is not within ε of `100`. -/
theorem c5_counterexample :
    Curve.new 1 [⟨0, some PathType.Linear⟩] 100 = some ⟨[0], [0]⟩ ∧
    ¬ |(Curve.mk [0] [0]).lengths.getLastD 0 - 100| ≤ fEps := by
  refine ⟨new_single 1 0 (some PathType.Linear) 100 (le_refl 1) (by simp), ?_⟩
  simp only [show ((Curve.mk [0] [0]).lengths.getLastD 0) = (0 : ℝ) from rfl]
  norm_num [fEps]

/-- C5 witness: the amended claim on the two-point unit segment with expected
length exactly `1`. -/
theorem c5_witness :
    Curve.new 1 [⟨⟨0, 0⟩, some PathType.Linear⟩, ⟨⟨1, 0⟩, none⟩] 1 =
        some ⟨[⟨0, 0⟩, ⟨1, 0⟩], [0, 1]⟩ ∧
    (0 : ℝ) ≤ 1 ∧
    2 ≤ (Curve.mk [⟨0, 0⟩, ⟨1, 0⟩] [0, 1]).path.length ∧
    |(Curve.mk [⟨0, 0⟩, ⟨1, 0⟩] [0, 1]).lengths.getLastD 0 - 1| ≤ fEps := by
  refine ⟨new_pair_unit, by norm_num, by simp, ?_⟩
  exact c5_expected_length 1 _ 1 _ new_pair_unit (by norm_num)
    (by intro h2; simp) (by simp)

/-! ### Claim C6 -/

theorem Pos2.add_sub_cancel_left (p q : Pos2) : (p + q) - p = q := by
  rw [Pos2.eq_iff]
  constructor <;> simp

theorem chain_ne_adjacent (path : List Pos2) (hch : List.Chain' (· ≠ ·) path)
    (m : ℕ) (hm0 : 1 ≤ m) (hm : m < path.length) :
    path.getD (m - 1) 0 ≠ path.getD m 0 := by
  have hrel := List.chain'_iff_get.mp hch (m - 1) (by omega)
  have hg1 : path.get ⟨m - 1, by omega⟩ = path.getD (m - 1) 0 := by
    rw [List.getD_eq_getElem _ _ (by omega)]
    simp [List.get_eq_getElem]
  have hg2 : path.get ⟨m - 1 + 1, by omega⟩ = path.getD m 0 := by
    rw [List.getD_eq_getElem _ _ (by omega)]
    simp only [List.get_eq_getElem]
    congr 1
    omega
  rw [hg1, hg2] at hrel
  exact hrel

/-- C6 (amended): when the expected length is smaller than the calculated
geometric length, the corrected path never gains vertices; when moreover
`0 ≤ expected_len` and the shortfall exceeds ε, the corrected length table
ends exactly at the expected length, the corrected path is the retained
prefix of the original polyline plus one relocated final vertex, and the
distance from the last retained vertex to the relocated final vertex equals
exactly the remaining length — i.e. the final vertex lies exactly at arc
length `expected_len` along the direction of the last retained segment. -/
theorem c6_truncation (fuel : ℕ) (points : List PathControlPoint) (e : ℝ)
    (path : List Pos2) (hp : calculate_path fuel points = some path)
    (hne : path ≠ []) (hlt : e < (cumulative_lengths path).getLastD 0) :
    (calculate_length points path e).2.length ≤ path.length ∧
    (0 ≤ e → fEps < (cumulative_lengths path).getLastD 0 - e →
      (calculate_length points path e).1.getLastD 0 = e ∧
      (calculate_length points path e).2.dropLast =
        path.take ((calculate_length points path e).2.length - 1) ∧
      ((calculate_length points path e).2.getLastD 0 -
          (calculate_length points path e).2.dropLast.getLastD 0).length =
        e - (calculate_length points path e).1.getD
          ((calculate_length points path e).1.length - 2) 0) := by
  have hch := calculate_path_chain fuel points path hp
  have hcne := cumulative_ne_nil path
  have hclen := cumulative_length_eq path hne
  have hcchain := cumulative_chain_lt path hch
  have hfe : (0 : ℝ) < fEps := by norm_num [fEps]
  rw [calculate_length]
  simp only []
  by_cases h1 : |e - (cumulative_lengths path).getLastD 0| ≤ fEps
  · rw [if_pos h1]
    refine ⟨le_refl _, ?_⟩
    intro he hgap
    exfalso
    rw [abs_sub_comm, abs_of_pos (by linarith)] at h1
    linarith
  · rw [if_neg h1]
    have h2 : ¬ special_cond points e ((cumulative_lengths path).getLastD 0) := by
      intro hsp
      have := hsp.2.2
      linarith
    rw [if_neg h2]
    obtain ⟨m, hm1, hm2, hm3⟩ := trim_pair_take path e hne hch
    rw [hm2]
    by_cases h3 : (cumulative_lengths path).take m = []
    · rw [if_pos h3]
      refine ⟨?_, ?_⟩
      · show (path.take (m + 1)).length ≤ path.length
        rw [List.length_take]
        omega
      · intro he hgap
        exfalso
        have hp2 : 2 ≤ path.length := by
          by_contra hcon
          have hp1 : path.length = 1 := by
            have := List.length_pos.mpr hne
            omega
          obtain ⟨x, hx⟩ := List.length_eq_one.mp hp1
          rw [hx, cumulative_single] at hgap
          rw [show ([(0 : ℝ)]).getLastD 0 = (0 : ℝ) from rfl] at hgap
          linarith
        rw [if_pos hlt] at hm2
        have hdne : (cumulative_lengths path).dropLast ≠ [] := by
          intro hcon
          have := congrArg List.length hcon
          rw [List.length_dropLast, hclen] at this
          simp at this
          omega
        have hh := trim_go_ne_nil e he (cumulative_lengths path).dropLast path hdne
          (by rw [List.dropLast_eq_take, headD_take _ _ (by rw [hclen]; omega)]
              exact cumulative_head path)
        have hfst : (trim_go e (cumulative_lengths path).dropLast path).1 =
            (cumulative_lengths path).take m := congrArg Prod.fst hm2
        rw [hfst] at hh
        exact hh.1 h3
    · rw [if_neg h3]
      have hm0 : 1 ≤ m := by
        rcases Nat.eq_zero_or_pos m with h' | h'
        · exfalso
          apply h3
          simp [h']
        · exact h'
      rw [hclen] at hm1
      have htklen : (path.take (m + 1)).length = m + 1 :=
        List.length_take_of_le (by omega)
      have ht1len : ((cumulative_lengths path).take m).length = m :=
        List.length_take_of_le (by rw [hclen]; omega)
      have htkdrop : (path.take (m + 1)).dropLast = path.take m := by
        rw [List.dropLast_eq_take, htklen, List.take_take]
        congr 1
        omega
      have hreslen : ∀ X : Pos2, ((path.take (m + 1)).dropLast ++ [X]).length = m + 1 := by
        intro X
        rw [List.length_append, List.length_dropLast, htklen]
        simp only [List.length_singleton]
        omega
      constructor
      · rw [hreslen]
        omega
      · intro he hgap
        have hlaste : ((cumulative_lengths path).take m).getLastD 0 ≤ e := by
          rcases hm3 with h' | h'
          · omega
          · exact h'
        refine ⟨by simp, ?_, ?_⟩
        · rw [List.dropLast_concat, hreslen, htkdrop]
          rw [show m + 1 - 1 = m from rfl]
        · -- the relocated final vertex sits exactly at the remaining length
          have hplen1 : 1 ≤ path.length := List.length_pos.mpr hne
          have hgm1 : (path.take (m + 1)).getD ((path.take (m + 1)).length - 2) 0 =
              path.getD (m - 1) 0 := by
            rw [htklen, show m + 1 - 2 = m - 1 by omega,
              getD_take_pos2 _ _ _ (by omega)]
          have hgm : (path.take (m + 1)).getD ((path.take (m + 1)).length - 1) 0 =
              path.getD m 0 := by
            rw [htklen, show m + 1 - 1 = m from rfl, getD_take_pos2 _ _ _ (by omega)]
          have hlastm : (path.take m).getLastD 0 = path.getD (m - 1) 0 := by
            rw [getLastD_pos2_eq_getD,
              List.length_take_of_le (show m ≤ path.length by omega),
              getD_take_pos2 _ _ _ (by omega)]
          have hvne : path.getD m 0 - path.getD (m - 1) 0 ≠ 0 := by
            intro hcon
            apply chain_ne_adjacent path hch m hm0 (by omega)
            rw [Pos2.eq_iff]
            have hx := congrArg Pos2.x hcon
            have hy := congrArg Pos2.y hcon
            simp only [Pos2.sub_x, Pos2.sub_y, Pos2.zero_x, Pos2.zero_y] at hx hy
            constructor <;> linarith
          have hidxL : ((cumulative_lengths path).take m ++ [e]).getD
              (((cumulative_lengths path).take m ++ [e]).length - 2) 0 =
              ((cumulative_lengths path).take m).getLastD 0 := by
            rw [List.length_append, ht1len]
            simp only [List.length_singleton]
            rw [show m + 1 - 2 = m - 1 by omega]
            rw [getD_append_lt _ _ _ (by omega), getLastD_eq_getD, ht1len]
          rw [List.getLastD_concat, List.dropLast_concat, htkdrop, hgm1, hgm, hlastm,
            Pos2.add_sub_cancel_left, Pos2.length_normalize_smul hvne,
            abs_of_nonneg (by linarith), hidxL]

theorem trim_pair_neg :
    trim_go (-1 : ℝ) [0] [(⟨0, 0⟩ : Pos2), ⟨1, 0⟩] = ([], [⟨0, 0⟩]) := by
  rw [trim_go]
  rw [dif_pos ⟨by simp, by
    rw [show (([0] : List ℝ)).getLastD 0 = (0 : ℝ) from rfl]
    norm_num⟩]
  rw [show ([0] : List ℝ).dropLast = [] from rfl,
    show ([(⟨0, 0⟩ : Pos2), ⟨1, 0⟩]).dropLast = [⟨0, 0⟩] from rfl]
  exact trim_go_nil_fst _ _

theorem len_pair_neg :
    calculate_length [⟨⟨0, 0⟩, some PathType.Linear⟩, ⟨⟨1, 0⟩, none⟩]
      [(⟨0, 0⟩ : Pos2), ⟨1, 0⟩] (-1) = ([0], [⟨0, 0⟩]) := by
  unfold calculate_length
  rw [cum_pair_unit]
  simp only []
  rw [show (([0, 1] : List ℝ)).getLastD 0 = (1 : ℝ) from rfl]
  rw [if_neg (by norm_num [fEps])]
  rw [if_neg (by intro hsp; have h3 := hsp.2.2; linarith)]
  rw [if_pos (show (-1 : ℝ) < (1 : ℝ) by norm_num)]
  rw [show ([0, 1] : List ℝ).dropLast = [0] from rfl]
  rw [trim_pair_neg]
  rw [if_pos (show (([] : List ℝ), [(⟨0, 0⟩ : Pos2)]).1 = ([] : List ℝ) from rfl)]

theorem new_pair_neg :
    Curve.new 1 [⟨⟨0, 0⟩, some PathType.Linear⟩, ⟨⟨1, 0⟩, none⟩] (-1) =
      some ⟨[⟨0, 0⟩], [0]⟩ := by
  unfold Curve.new
  rw [path_pair_unit]
  simp only [Option.some_bind]
  rw [if_neg (by simp), len_pair_neg]

/-- C6 counterexample: for the unit segment with expected length `-1` (smaller
than the calculated length `1`) the curve is trimmed to a single vertex whose
final cumulative length is `0`, not the expected `-1`: the final vertex does
not lie at arc length `expected_len`. -/
theorem c6_counterexample :
    Curve.new 1 [⟨⟨0, 0⟩, some PathType.Linear⟩, ⟨⟨1, 0⟩, none⟩] (-1) =
      some ⟨[⟨0, 0⟩], [0]⟩ ∧
    (-1 : ℝ) < (cumulative_lengths [(⟨0, 0⟩ : Pos2), ⟨1, 0⟩]).getLastD 0 ∧
    (Curve.mk [⟨0, 0⟩] [0]).lengths.getLastD 0 ≠ (-1 : ℝ) := by
  refine ⟨new_pair_neg, ?_, ?_⟩
  · rw [cum_pair_unit]
    rw [show (([0, 1] : List ℝ)).getLastD 0 = (1 : ℝ) from rfl]
    norm_num
  · rw [show ((Curve.mk [⟨0, 0⟩] [0]).lengths.getLastD 0) = (0 : ℝ) from rfl]
    norm_num

/-- C6 witness: the amended claim on the unit segment truncated to expected
length `1/2`. -/
theorem c6_witness :
    calculate_path 1 [⟨⟨0, 0⟩, some PathType.Linear⟩, ⟨⟨1, 0⟩, none⟩] =
        some [⟨0, 0⟩, ⟨1, 0⟩] ∧
    ([(⟨0, 0⟩ : Pos2), ⟨1, 0⟩] : List Pos2) ≠ [] ∧
    (1 / 2 : ℝ) < (cumulative_lengths [(⟨0, 0⟩ : Pos2), ⟨1, 0⟩]).getLastD 0 ∧
    ((calculate_length [⟨⟨0, 0⟩, some PathType.Linear⟩, ⟨⟨1, 0⟩, none⟩]
        [(⟨0, 0⟩ : Pos2), ⟨1, 0⟩] (1 / 2)).2.length ≤
      ([(⟨0, 0⟩ : Pos2), ⟨1, 0⟩] : List Pos2).length ∧
    ((0 : ℝ) ≤ 1 / 2 →
      fEps < (cumulative_lengths [(⟨0, 0⟩ : Pos2), ⟨1, 0⟩]).getLastD 0 - 1 / 2 →
      (calculate_length [⟨⟨0, 0⟩, some PathType.Linear⟩, ⟨⟨1, 0⟩, none⟩]
          [(⟨0, 0⟩ : Pos2), ⟨1, 0⟩] (1 / 2)).1.getLastD 0 = 1 / 2 ∧
      (calculate_length [⟨⟨0, 0⟩, some PathType.Linear⟩, ⟨⟨1, 0⟩, none⟩]
          [(⟨0, 0⟩ : Pos2), ⟨1, 0⟩] (1 / 2)).2.dropLast =
        ([(⟨0, 0⟩ : Pos2), ⟨1, 0⟩] : List Pos2).take
          ((calculate_length [⟨⟨0, 0⟩, some PathType.Linear⟩, ⟨⟨1, 0⟩, none⟩]
              [(⟨0, 0⟩ : Pos2), ⟨1, 0⟩] (1 / 2)).2.length - 1) ∧
      ((calculate_length [⟨⟨0, 0⟩, some PathType.Linear⟩, ⟨⟨1, 0⟩, none⟩]
            [(⟨0, 0⟩ : Pos2), ⟨1, 0⟩] (1 / 2)).2.getLastD 0 -
          (calculate_length [⟨⟨0, 0⟩, some PathType.Linear⟩, ⟨⟨1, 0⟩, none⟩]
              [(⟨0, 0⟩ : Pos2), ⟨1, 0⟩] (1 / 2)).2.dropLast.getLastD 0).length =
        1 / 2 - (calculate_length [⟨⟨0, 0⟩, some PathType.Linear⟩, ⟨⟨1, 0⟩, none⟩]
            [(⟨0, 0⟩ : Pos2), ⟨1, 0⟩] (1 / 2)).1.getD
          ((calculate_length [⟨⟨0, 0⟩, some PathType.Linear⟩, ⟨⟨1, 0⟩, none⟩]
              [(⟨0, 0⟩ : Pos2), ⟨1, 0⟩] (1 / 2)).1.length - 2) 0)) := by
  have hlt : (1 / 2 : ℝ) < (cumulative_lengths [(⟨0, 0⟩ : Pos2), ⟨1, 0⟩]).getLastD 0 := by
    rw [cum_pair_unit]
    rw [show (([0, 1] : List ℝ)).getLastD 0 = (1 : ℝ) from rfl]
    norm_num
  exact ⟨path_pair_unit, by simp, hlt,
    c6_truncation 1 _ (1 / 2) _ path_pair_unit (by simp) hlt⟩

theorem path_pair_delta :
    calculate_path 1
      [⟨⟨0, 0⟩, some PathType.Linear⟩, ⟨⟨1 / 16777216, 0⟩, none⟩] =
      some [⟨0, 0⟩, ⟨1 / 16777216, 0⟩] := by
  unfold calculate_path calc_path_step calculate_subpath
  simp [List.range_succ, dedupVec, List.destutter, List.destutter', Pos2.mk.injEq,
    show (0 : ℝ) ≠ 1 / 16777216 by norm_num]

theorem cum_pair_delta :
    cumulative_lengths [(⟨0, 0⟩ : Pos2), ⟨1 / 16777216, 0⟩] = [0, 1 / 16777216] := by
  unfold cumulative_lengths
  have hd : ((⟨1 / 16777216, 0⟩ : Pos2) - ⟨0, 0⟩).length = 1 / 16777216 := by
    unfold Pos2.length Pos2.length_squared
    simp only [Pos2.sub_x, Pos2.sub_y]
    rw [show ((1 / 16777216 - 0 : ℝ)) ^ 2 + (0 - 0 : ℝ) ^ 2 = (1 / 16777216 : ℝ) ^ 2 by
      ring]
    exact Real.sqrt_sq (by norm_num)
  rw [one_div] at hd
  simp [hd, List.scanl_cons, List.scanl_nil]

theorem len_pair_delta :
    calculate_length [⟨⟨0, 0⟩, some PathType.Linear⟩, ⟨⟨1 / 16777216, 0⟩, none⟩]
      [(⟨0, 0⟩ : Pos2), ⟨1 / 16777216, 0⟩] (1 / 16777216) =
      ([0, 1 / 16777216], [⟨0, 0⟩, ⟨1 / 16777216, 0⟩]) := by
  unfold calculate_length
  rw [cum_pair_delta]
  rw [if_pos (by
    rw [show (([0, 1 / 16777216] : List ℝ)).getLastD 0 = (1 / 16777216 : ℝ) from rfl,
      sub_self, abs_zero]
    norm_num [fEps])]

theorem new_pair_delta :
    Curve.new 1 [⟨⟨0, 0⟩, some PathType.Linear⟩, ⟨⟨1 / 16777216, 0⟩, none⟩]
      (1 / 16777216) =
      some ⟨[⟨0, 0⟩, ⟨1 / 16777216, 0⟩], [0, 1 / 16777216]⟩ := by
  unfold Curve.new
  rw [path_pair_delta]
  simp only [Option.some_bind]
  rw [if_neg (by simp), len_pair_delta]

theorem query_pair_delta :
    point_at_distance ⟨[⟨0, 0⟩, ⟨1 / 16777216, 0⟩], [0, 1 / 16777216]⟩
      (1 / 16777216) = (⟨0, 0⟩ : Pos2) := by
  unfold point_at_distance idx_of_dist
  have hb : bin_search_go [0, 1 / 16777216] (1 / 16777216) 0 2 = 1 := by
    rw [bin_search_go]
    rw [dif_pos (by omega)]
    rw [show (0 + (2 - 0) / 2 : ℕ) = 1 from rfl]
    rw [show (([0, 1 / 16777216] : List ℝ)).getD 1 0 = (1 / 16777216 : ℝ) from rfl]
    rw [if_neg (lt_irrefl _), if_neg (lt_irrefl _)]
  rw [show (([0, (1 / 16777216 : ℝ)] : List ℝ)).length = 2 from rfl, hb]
  unfold interpolate_vertices
  rw [if_neg (show ¬([(⟨0, 0⟩ : Pos2), ⟨1 / 16777216, 0⟩] = []) by simp),
    if_neg (show ¬((1 : ℕ) = 0) by omega),
    if_neg (show ¬([(⟨0, 0⟩ : Pos2), ⟨1 / 16777216, 0⟩].length ≤ 1) by simp)]
  simp only []
  rw [if_pos (by
    norm_num [fEps]
    rw [abs_of_nonneg (by norm_num : (0 : ℝ) ≤ 1 / 16777216)]
    norm_num)]
  rfl

/-- C7 counterexample: for the two-point curve whose vertices are separated
by `2⁻²⁴` (below the `f32::EPSILON` guard of `interpolate_vertices`), the
distance query at the total length returns the FIRST path vertex, not the
last one. -/
theorem c7_counterexample :
    Curve.new 1 [⟨⟨0, 0⟩, some PathType.Linear⟩, ⟨⟨1 / 16777216, 0⟩, none⟩]
        (1 / 16777216) =
      some ⟨[⟨0, 0⟩, ⟨1 / 16777216, 0⟩], [0, 1 / 16777216]⟩ ∧
    point_at_distance (Curve.mk [⟨0, 0⟩, ⟨1 / 16777216, 0⟩] [0, 1 / 16777216])
        (Curve.dist (Curve.mk [⟨0, 0⟩, ⟨1 / 16777216, 0⟩] [0, 1 / 16777216])) =
      (⟨0, 0⟩ : Pos2) ∧
    (Curve.mk [⟨0, 0⟩, ⟨1 / 16777216, 0⟩] [0, 1 / 16777216]).path.getLastD 0 =
      (⟨1 / 16777216, 0⟩ : Pos2) ∧
    (⟨0, 0⟩ : Pos2) ≠ ⟨1 / 16777216, 0⟩ := by
  refine ⟨new_pair_delta, ?_, rfl, ?_⟩
  · rw [show Curve.dist (Curve.mk [⟨0, 0⟩, ⟨1 / 16777216, 0⟩] [0, 1 / 16777216]) =
      (1 / 16777216 : ℝ) from rfl]
    exact query_pair_delta
  · intro hcon
    rw [Pos2.mk.injEq] at hcon
    exact absurd hcon.1 (by norm_num)

/-- C7 witness: the amended claim (well-separated cumulative lengths)
instantiated on the unit segment. -/
theorem c7_witness :
    Curve.new 1 [⟨⟨0, 0⟩, some PathType.Linear⟩, ⟨⟨1, 0⟩, none⟩] 1 =
        some ⟨[⟨0, 0⟩, ⟨1, 0⟩], [0, 1]⟩ ∧
    List.Chain' (fun a b : ℝ => a = b ∨ fEps < b - a)
      (Curve.mk [⟨0, 0⟩, ⟨1, 0⟩] [0, 1]).lengths ∧
    (point_at_distance (Curve.mk [⟨0, 0⟩, ⟨1, 0⟩] [0, 1]) 0 =
        (Curve.mk [⟨0, 0⟩, ⟨1, 0⟩] [0, 1]).path.headD 0 ∧
      point_at_distance (Curve.mk [⟨0, 0⟩, ⟨1, 0⟩] [0, 1])
          (Curve.dist (Curve.mk [⟨0, 0⟩, ⟨1, 0⟩] [0, 1])) =
        (Curve.mk [⟨0, 0⟩, ⟨1, 0⟩] [0, 1]).path.getLastD 0) := by
  have hsep : List.Chain' (fun a b : ℝ => a = b ∨ fEps < b - a)
      (Curve.mk [⟨0, 0⟩, ⟨1, 0⟩] [0, 1]).lengths := by
    rw [show (Curve.mk [⟨0, 0⟩, ⟨1, 0⟩] [0, 1]).lengths = [0, 1] from rfl,
      List.chain'_pair]
    right
    norm_num [fEps]
  exact ⟨new_pair_unit, hsep,
    c7_point_at_distance_endpoints 1 _ 1 _ new_pair_unit hsep⟩

/-! ### Claim C8 -/

theorem path_triple :
    calculate_path 1 [⟨⟨0, 0⟩, some PathType.Linear⟩, ⟨⟨1, 0⟩, none⟩, ⟨⟨2, 0⟩, none⟩] =
      some [⟨0, 0⟩, ⟨1, 0⟩, ⟨2, 0⟩] := by
  unfold calculate_path calc_path_step calculate_subpath
  simp [List.range_succ, dedupVec, List.destutter, List.destutter', Pos2.mk.injEq]

theorem cum_triple :
    cumulative_lengths [(⟨0, 0⟩ : Pos2), ⟨1, 0⟩, ⟨2, 0⟩] = [0, 1, 2] := by
  unfold cumulative_lengths
  have hd1 : ((⟨1, 0⟩ : Pos2) - ⟨0, 0⟩).length = 1 := by
    unfold Pos2.length Pos2.length_squared
    norm_num
  have hd2 : ((⟨2, 0⟩ : Pos2) - ⟨1, 0⟩).length = 1 := by
    unfold Pos2.length Pos2.length_squared
    norm_num
  norm_num [hd1, hd2, List.scanl_cons, List.scanl_nil]

theorem trim_triple :
    trim_go 1 [0, 1] [(⟨0, 0⟩ : Pos2), ⟨1, 0⟩, ⟨2, 0⟩] =
      ([0, 1], [⟨0, 0⟩, ⟨1, 0⟩, ⟨2, 0⟩]) := by
  rw [trim_go]
  rw [dif_neg (by
    intro hc
    have h2 := hc.2
    rw [show (([0, 1] : List ℝ)).getLastD 0 = (1 : ℝ) from rfl] at h2
    linarith)]

theorem len_triple :
    calculate_length [⟨⟨0, 0⟩, some PathType.Linear⟩, ⟨⟨1, 0⟩, none⟩, ⟨⟨2, 0⟩, none⟩]
      [(⟨0, 0⟩ : Pos2), ⟨1, 0⟩, ⟨2, 0⟩] 1 =
      ([0, 1, 1], [⟨0, 0⟩, ⟨1, 0⟩, ⟨1, 0⟩]) := by
  unfold calculate_length
  rw [cum_triple]
  simp only []
  rw [show (([0, 1, 2] : List ℝ)).getLastD 0 = (2 : ℝ) from rfl]
  rw [if_neg (by
    rw [show ((1 : ℝ) - 2) = -1 by norm_num, abs_neg, abs_one]
    norm_num [fEps])]
  rw [if_neg (by
    intro hsp
    have h2 := hsp.2.1
    rw [show ([⟨⟨0, 0⟩, some PathType.Linear⟩, ⟨⟨1, 0⟩, none⟩,
        (⟨⟨2, 0⟩, none⟩ : PathControlPoint)].getD
        ([⟨⟨0, 0⟩, some PathType.Linear⟩, ⟨⟨1, 0⟩, none⟩,
          (⟨⟨2, 0⟩, none⟩ : PathControlPoint)].length - 2) default).pos =
        (⟨1, 0⟩ : Pos2) from rfl,
      show ([⟨⟨0, 0⟩, some PathType.Linear⟩, ⟨⟨1, 0⟩, none⟩,
        (⟨⟨2, 0⟩, none⟩ : PathControlPoint)].getD
        ([⟨⟨0, 0⟩, some PathType.Linear⟩, ⟨⟨1, 0⟩, none⟩,
          (⟨⟨2, 0⟩, none⟩ : PathControlPoint)].length - 1) default).pos =
        (⟨2, 0⟩ : Pos2) from rfl, Pos2.mk.injEq] at h2
    exact absurd h2.1 (by norm_num))]
  rw [if_pos (show (1 : ℝ) < 2 by norm_num)]
  rw [show ([0, 1, 2] : List ℝ).dropLast = [0, 1] from rfl]
  rw [trim_triple]
  rw [if_neg (show ¬((([0, 1] : List ℝ),
      [(⟨0, 0⟩ : Pos2), ⟨1, 0⟩, ⟨2, 0⟩]).1 = []) by simp)]
  rw [Prod.mk.injEq]
  refine ⟨rfl, ?_⟩
  rw [show ((([0, 1] : List ℝ),
      [(⟨0, 0⟩ : Pos2), ⟨1, 0⟩, ⟨2, 0⟩]).1.getLastD 0) = (1 : ℝ) from rfl]
  rw [show ((1 : ℝ) - 1) = 0 by norm_num]
  rw [Pos2.smul_zero, Pos2.add_zero]
  rfl

theorem new_triple :
    Curve.new 1 [⟨⟨0, 0⟩, some PathType.Linear⟩, ⟨⟨1, 0⟩, none⟩, ⟨⟨2, 0⟩, none⟩] 1 =
      some ⟨[⟨0, 0⟩, ⟨1, 0⟩, ⟨1, 0⟩], [0, 1, 1]⟩ := by
  unfold Curve.new
  rw [path_triple]
  simp only [Option.some_bind]
  rw [if_neg (by simp), len_triple]

/-- C8 (amended): the polyline produced by `calculate_path` never contains two
consecutive exactly-equal vertices — `Vec::dedup` runs after all segments are
concatenated.  (The final-vertex relocation of `calculate_length` can
re-introduce an exact duplicate afterwards; see the counterexample.) -/
theorem c8_dedup_invariant (fuel : ℕ) (points : List PathControlPoint)
    (path : List Pos2) (h : calculate_path fuel points = some path) :
    List.Chain' (· ≠ ·) path :=
  calculate_path_chain fuel points path h

/-- C8 counterexample: truncating the two-unit polyline to expected length `1`
relocates the final vertex exactly onto its predecessor, so the built curve's
final path `[(0,0),(1,0),(1,0)]` has two consecutive exactly-equal vertices. -/
theorem c8_counterexample :
    Curve.new 1 [⟨⟨0, 0⟩, some PathType.Linear⟩, ⟨⟨1, 0⟩, none⟩, ⟨⟨2, 0⟩, none⟩] 1 =
      some ⟨[⟨0, 0⟩, ⟨1, 0⟩, ⟨1, 0⟩], [0, 1, 1]⟩ ∧
    ¬ List.Chain' (· ≠ ·)
        (Curve.mk [⟨0, 0⟩, ⟨1, 0⟩, ⟨1, 0⟩] [0, 1, 1]).path := by
  refine ⟨new_triple, fun hc => ?_⟩
  exact (List.chain'_cons.mp (List.chain'_cons.mp hc).2).1 rfl

/-- C8 witness: the amended claim on a control-point list with a duplicated
consecutive point, whose deduplicated polyline is the single vertex. -/
theorem c8_witness :
    calculate_path 1 [⟨0, some PathType.Linear⟩, ⟨0, none⟩] = some [(0 : Pos2)] ∧
    List.Chain' (· ≠ ·) [(0 : Pos2)] :=
  ⟨path_pair_same, c8_dedup_invariant 1 _ _ path_pair_same⟩

/-! ### Claim C3 -/

/-- C3 (code bug): for the non-collinear triple `(100,100), (101,101), (102,100)`
`circular_arc_properties` succeeds, yet the middle input point lies much farther
from the returned centre than `radius` — beyond the arc tolerance — because the
`centre.y` numerator drops the `a_sq *` factor of the circumcircle determinant
formula, so the sampled arc cannot pass through all three points. -/
theorem c3_circumcircle_bug :
    ∃ pr : CircularArcProperties,
      circular_arc_properties ⟨100, 100⟩ ⟨101, 101⟩ ⟨102, 100⟩ = some pr ∧
      CIRCULAR_ARC_TOLERANCE <
        |((⟨101, 101⟩ : Pos2) - pr.centre).length - pr.radius| := by
  unfold circular_arc_properties
  rw [if_neg (by
    rw [show ((⟨101, 101⟩ : Pos2).y - (⟨100, 100⟩ : Pos2).y) *
        ((⟨102, 100⟩ : Pos2).x - (⟨100, 100⟩ : Pos2).x) -
        ((⟨101, 101⟩ : Pos2).x - (⟨100, 100⟩ : Pos2).x) *
        ((⟨102, 100⟩ : Pos2).y - (⟨100, 100⟩ : Pos2).y) = (2 : ℝ) by norm_num]
    rw [show |(2 : ℝ)| = 2 from abs_of_nonneg (by norm_num)]
    norm_num [fEps])]
  simp only []
  rw [if_pos (by
    unfold Pos2.dot
    simp only [Pos2.sub_x, Pos2.sub_y]
    norm_num)]
  refine ⟨_, rfl, ?_⟩
  unfold Pos2.length_squared
  norm_num
  have hb : ((⟨101, 101⟩ : Pos2) - ⟨101, 20399 / 4⟩).length = 19995 / 4 := by
    unfold Pos2.length Pos2.length_squared
    simp only [Pos2.sub_x, Pos2.sub_y]
    rw [show ((101 - 101 : ℝ)) ^ 2 + (101 - 20399 / 4 : ℝ) ^ 2 = ((19995 / 4 : ℝ)) ^ 2 by
      norm_num]
    exact Real.sqrt_sq (by norm_num)
  have hr : (19999 / 4 : ℝ) ≤ ((⟨100, 100⟩ : Pos2) - ⟨101, 20399 / 4⟩).length := by
    unfold Pos2.length Pos2.length_squared
    simp only [Pos2.sub_x, Pos2.sub_y]
    rw [show ((100 - 101 : ℝ)) ^ 2 + (100 - 20399 / 4 : ℝ) ^ 2 = 1 + ((19999 / 4 : ℝ)) ^ 2 by
      norm_num]
    calc (19999 / 4 : ℝ) = Real.sqrt ((19999 / 4) ^ 2) := (Real.sqrt_sq (by norm_num)).symm
    _ ≤ Real.sqrt (1 + (19999 / 4) ^ 2) := Real.sqrt_le_sqrt (by norm_num)
  rw [hb]
  rw [abs_of_nonpos (by linarith)]
  rw [show CIRCULAR_ARC_TOLERANCE = (1 / 10 : ℝ) by unfold CIRCULAR_ARC_TOLERANCE; norm_num]
  linarith

/-! ### Claim C9 -/

theorem Pos2.sub_self (p : Pos2) : p - p = (0 : Pos2) := by
  rw [Pos2.eq_iff]
  simp

theorem Pos2.sub_zero (p : Pos2) : p - 0 = p := by
  rw [Pos2.eq_iff]
  simp

theorem Pos2.zero_add (p : Pos2) : (0 : Pos2) + p = p := by
  rw [Pos2.eq_iff]
  simp

/-- C9: `Curve_::bezier` stores the path relative to the first control point:
translating the input so that its first point becomes the origin changes
nothing, so the stored vertices — and every distance query on the stored
path — are expressed relative to the first control point. -/
theorem c9_relative_storage (fuel : ℕ) (points : List Pos2) (e : ℝ)
    (hne : points ≠ []) :
    Curve_bezier fuel points e =
      Curve_bezier fuel (points.map fun q => q - points.headD 0) e := by
  obtain ⟨p, t, rfl⟩ := List.exists_cons_of_ne_nil hne
  unfold Curve_bezier
  rw [if_neg (by simp), if_neg (by simp)]
  simp only [List.headD_cons, List.map_cons, List.map_map]
  rw [Pos2.sub_self]
  congr 2
  · exact (Pos2.sub_zero 0).symm
  · refine (List.map_congr_left fun a _ => ?_).symm
    show (a - p) - 0 = a - p
    exact Pos2.sub_zero _

/-- C9 witness: the translation invariance at the single control point `(1,2)`. -/
theorem c9_witness :
    ([(⟨1, 2⟩ : Pos2)] : List Pos2) ≠ [] ∧
    Curve_bezier 0 [(⟨1, 2⟩ : Pos2)] 0 =
      Curve_bezier 0 ([(⟨1, 2⟩ : Pos2)].map fun q => q - [(⟨1, 2⟩ : Pos2)].headD 0) 0 :=
  ⟨by simp, c9_relative_storage 0 [⟨1, 2⟩] 0 (by simp)⟩

/-! ### Claim C4 -/

theorem lazy_segs_pair (a b : Pos2) : lazy_segs [a, b] = [[a, b]] := by
  unfold lazy_segs
  simp only []
  rw [show ([a, b] : List Pos2).length - 1 = 1 from rfl,
    show List.range 1 = [0] from rfl]
  rw [List.foldl_cons, List.foldl_nil]
  rw [if_neg (fun hc => absurd hc.1 (by omega))]
  rfl

theorem lazy_flatten_pair_none (fuel : ℕ) (a b : Pos2) (acc : List Pos2) :
    lazy_flatten 2 fuel [[a, b]] acc = none := by
  cases fuel with
  | zero => rfl
  | succ n =>
    rw [lazy_flatten]
    rw [if_pos (flat_pair a b)]
    rw [show lazy_bezier_approximate_out 2 [a, b] = none by
      unfold lazy_bezier_approximate_out
      rw [if_pos (by simp)]]
    rfl

theorem curve_bezier_pair_none (fuel : ℕ) (p q : Pos2) (e : ℝ) :
    Curve_bezier fuel [p, q] e = none := by
  unfold Curve_bezier
  rw [if_neg (by simp)]
  unfold bezier_from_relative
  rw [if_neg (by simp)]
  simp only [List.headD_cons, List.map_cons, List.map_nil, List.length_cons,
    List.length_nil]
  rw [lazy_segs_pair]
  rw [show List.foldlM
      (fun acc s => lazy_flatten 2 fuel [s] acc) []
      [[p - p, q - p]] =
    lazy_flatten 2 fuel [[p - p, q - p]] [] >>= fun b =>
      List.foldlM (fun acc s => lazy_flatten 2 fuel [s] acc) b [] from rfl]
  rw [lazy_flatten_pair_none]
  rfl

theorem curve_bezier_single (fuel : ℕ) (p : Pos2) (e : ℝ) :
    Curve_bezier fuel [p] e = some ⟨[0], [0]⟩ := by
  unfold Curve_bezier
  rw [if_neg (by simp)]
  unfold bezier_from_relative
  rw [if_pos (by simp)]
  simp only [List.headD_cons, List.map_cons, List.map_nil]
  rw [Pos2.sub_self]

theorem bezier_out_pair (p q : Pos2) : bezier_approximate_out [p, q] = [p] := by
  unfold bezier_approximate_out subdivideL subdivideR
  simp [windows3, step_by_two, List.range_succ]

theorem approximate_bezier_pair (f : ℕ) (path : List Pos2) (p q : Pos2) :
    approximate_bezier (f + 1) path [p, q] = some (path ++ [p, q]) := by
  unfold approximate_bezier approximate_bspline
  rw [show bspline_go (f + 1) [[p, q]] path = some (path ++ [p]) by
    rw [bspline_go, if_pos (flat_pair p q)]
    rw [bezier_out_pair]
    cases f <;> rfl]
  simp

theorem path_pair_bezier :
    calculate_path 1 [⟨⟨1, 0⟩, some PathType.Bezier⟩, ⟨⟨2, 0⟩, none⟩] =
      some [⟨1, 0⟩, ⟨2, 0⟩] := by
  unfold calculate_path calc_path_step calculate_subpath
  simp [List.range_succ, dedupVec, List.destutter, List.destutter', Pos2.mk.injEq,
    show approximate_bezier 1 [] [(⟨1, 0⟩ : Pos2)] = some [⟨1, 0⟩, ⟨1, 0⟩] from
      approximate_bezier_single 0 ⟨1, 0⟩,
    show approximate_bezier 1 [(⟨1, 0⟩ : Pos2), ⟨1, 0⟩] [⟨1, 0⟩, ⟨2, 0⟩] =
        some [⟨1, 0⟩, ⟨1, 0⟩, ⟨1, 0⟩, ⟨2, 0⟩] from
      approximate_bezier_pair 0 [⟨1, 0⟩, ⟨1, 0⟩] ⟨1, 0⟩ ⟨2, 0⟩]

theorem cum_pair_bezier :
    cumulative_lengths [(⟨1, 0⟩ : Pos2), ⟨2, 0⟩] = [0, 1] := by
  unfold cumulative_lengths
  have hd : ((⟨2, 0⟩ : Pos2) - ⟨1, 0⟩).length = 1 := by
    unfold Pos2.length Pos2.length_squared
    norm_num
  simp [hd, List.scanl_cons, List.scanl_nil]

theorem len_pair_bezier :
    calculate_length [⟨⟨1, 0⟩, some PathType.Bezier⟩, ⟨⟨2, 0⟩, none⟩]
      [(⟨1, 0⟩ : Pos2), ⟨2, 0⟩] 1 = ([0, 1], [⟨1, 0⟩, ⟨2, 0⟩]) := by
  unfold calculate_length
  rw [cum_pair_bezier]
  rw [if_pos (by norm_num [fEps])]

theorem new_pair_bezier :
    Curve.new 1 [⟨⟨1, 0⟩, some PathType.Bezier⟩, ⟨⟨2, 0⟩, none⟩] 1 =
      some ⟨[⟨1, 0⟩, ⟨2, 0⟩], [0, 1]⟩ := by
  unfold Curve.new
  rw [path_pair_bezier]
  simp only [Option.some_bind]
  rw [if_neg (by simp), len_pair_bezier]

/-- C4 (amended): the eager and lazy flows do NOT compute the same object on
common inputs.  (a) For every two-point Bezier run the lazy `Curve_::bezier`
panics — its flattening buffer of `points.len()` entries cannot hold the
`2 * count - 1` midpoints written by `bezier_approximate` — modelled as `none`
for every fuel.  (b) The flows agree only degenerately: on a single-point run
both succeed, but the lazy path is stored relative to the first control point,
so its query differs from the eager one by exactly that offset. -/
theorem c4_eager_lazy_divergence :
    (∀ (fuel : ℕ) (p q : Pos2) (e : ℝ), Curve_bezier fuel [p, q] e = none) ∧
    (∀ (fuel : ℕ) (p : Pos2) (e : ℝ), 1 ≤ fuel →
      Curve.new fuel [⟨p, some PathType.Bezier⟩] e = some ⟨[p], [0]⟩ ∧
      Curve_bezier fuel [p] e = some ⟨[0], [0]⟩ ∧
      ∀ d, point_at_distance ⟨[p], [0]⟩ d =
        lazy_point_at_distance ⟨[0], [0]⟩ d + p) := by
  refine ⟨curve_bezier_pair_none, fun fuel p e hf => ?_⟩
  refine ⟨new_single fuel p (some PathType.Bezier) e hf (by simp),
    curve_bezier_single fuel p e, fun d => ?_⟩
  rw [show lazy_point_at_distance ⟨[0], [0]⟩ d =
      point_at_distance (Curve.mk [0] [0]) d from rfl]
  rw [query_single, query_single, Pos2.zero_add]

/-- C4 counterexample: for the same two-point Bezier run and expected length
the eager flow builds a curve while the lazy flow fails (buffer-overrun
panic), so their distance queries cannot return the same point. -/
theorem c4_counterexample :
    Curve.new 1 [⟨⟨1, 0⟩, some PathType.Bezier⟩, ⟨⟨2, 0⟩, none⟩] 1 =
      some ⟨[⟨1, 0⟩, ⟨2, 0⟩], [0, 1]⟩ ∧
    Curve_bezier 1 [⟨1, 0⟩, ⟨2, 0⟩] 1 = none :=
  ⟨new_pair_bezier, curve_bezier_pair_none 1 ⟨1, 0⟩ ⟨2, 0⟩ 1⟩

/-- C4 witness: the amended claim at the runs `[(5,6),(7,8)]` and `[(5,6)]`. -/
theorem c4_witness :
    Curve_bezier 0 [⟨5, 6⟩, ⟨7, 8⟩] 3 = none ∧
    (1 ≤ 1 ∧
      (Curve.new 1 [⟨⟨5, 6⟩, some PathType.Bezier⟩] 3 = some ⟨[⟨5, 6⟩], [0]⟩ ∧
       Curve_bezier 1 [⟨5, 6⟩] 3 = some ⟨[0], [0]⟩ ∧
       ∀ d, point_at_distance ⟨[⟨5, 6⟩], [0]⟩ d =
         lazy_point_at_distance ⟨[0], [0]⟩ d + ⟨5, 6⟩)) :=
  ⟨c4_eager_lazy_divergence.1 0 ⟨5, 6⟩ ⟨7, 8⟩ 3, le_refl 1,
    c4_eager_lazy_divergence.2 1 ⟨5, 6⟩ 3 (le_refl 1)⟩
